import Mathlib

/-!
# A verification of `kompresor.py`

A shallow embedding of the Huffman coder in `src/kompresor.py` together with
proofs and refutations of the specified properties.

Conventions of the embedding:

* A Python character (always a one-character, hence non-empty and truthy,
  string here) is a Lean `Char`; the input text is a `List Char`.
* A bit string (Python string of `"0"`/`"1"`) is a `List Bool`
  (`false` = `"0"`, `true` = `"1"`).
* A Python `dict` is an association list in insertion order; assignment to an
  existing key updates the entry in place, assignment to a fresh key appends.
* Fallible Python code (exceptions: `KeyError`, `IndexError`, `ValueError`,
  `AttributeError`) is embedded in `Option`, `none` marking the raised
  exception.
* The `while` loops of `heapq` are embedded with an explicit structural fuel
  parameter; each call site passes a fuel value that provably dominates the
  number of iterations the Python loop performs, so the embedded function
  computes the same result as the loop (the fuel-exhausted branch performs
  the same final action as the natural loop exit and is never reached early).
-/

namespace Kompresor

/-- The `HuffmanNode` class of `kompresor.py`: a `char` field that is `None`
on internal nodes, a `freq` field, and `left`/`right` children that are
`None` when absent.  `__lt__` compares `freq` only. -/
inductive HuffmanNode : Type where
  | mk (char : Option Char) (freq : Nat) (left : Option HuffmanNode)
      (right : Option HuffmanNode) : HuffmanNode

namespace HuffmanNode

/-- Field accessor `node.char`. -/
def char : HuffmanNode → Option Char
  | .mk c _ _ _ => c

/-- Field accessor `node.freq`. -/
def freq : HuffmanNode → Nat
  | .mk _ f _ _ => f

/-- Field accessor `node.left`. -/
def left : HuffmanNode → Option HuffmanNode
  | .mk _ _ l _ => l

/-- Field accessor `node.right`. -/
def right : HuffmanNode → Option HuffmanNode
  | .mk _ _ _ r => r

instance : Inhabited HuffmanNode := ⟨.mk none 0 none none⟩

end HuffmanNode

/-- Python dict assignment `d[k] = v`: update in place if the key is present,
append otherwise. -/
def dictInsert (d : List (Char × List Bool)) (k : Char) (v : List Bool) :
    List (Char × List Bool) :=
  match d with
  | [] => [(k, v)]
  | (k', v') :: rest =>
      if k' = k then (k', v) :: rest else (k', v') :: dictInsert rest k v

/-- Python dict lookup `d[k]`: `none` is the `KeyError`. -/
def dictLookup (d : List (Char × List Bool)) (k : Char) : Option (List Bool) :=
  match d with
  | [] => none
  | (k', v) :: rest => if k' = k then some v else dictLookup rest k

/-- One step of `frequency[char] += 1` on a `defaultdict(int)`: a fresh key
is appended with count 1, an existing key is bumped in place. -/
def bump (d : List (Char × Nat)) (c : Char) : List (Char × Nat) :=
  match d with
  | [] => [(c, 1)]
  | (k, v) :: rest =>
      if k = c then (k, v + 1) :: rest else (k, v) :: bump rest c

/-- `build_frequency_dict` of `kompresor.py`. -/
def build_frequency_dict (data : List Char) : List (Char × Nat) :=
  data.foldl bump []

/-! ## The `heapq` routines

`kompresor.py` drives tree construction through CPython's `heapq` module;
the four routines it uses (`heapify`, `heappush`, `heappop` and their helpers
`_siftdown`, `_siftup`) are embedded here verbatim, on `List HuffmanNode`
with the `freq`-only comparison of `HuffmanNode.__lt__`.  List indexing uses
`List.getD` with the junk default `default`; every access made by the
algorithm is in bounds, so the default is never read. -/

/-- The `while` loop of `heapq._siftdown`, fuel-counted.  `pos` strictly
decreases across iterations, so any fuel `≥ pos` makes the embedding agree
with the Python loop; the fuel-exhausted branch coincides with the natural
exit action `heap[pos] = newitem`. -/
def siftdownLoop : Nat → List HuffmanNode → Nat → Nat → HuffmanNode →
    List HuffmanNode
  | 0, heap, _, pos, newitem => heap.set pos newitem
  | fuel + 1, heap, startpos, pos, newitem =>
      if startpos < pos then
        let parentpos := (pos - 1) / 2
        let parent := heap.getD parentpos default
        if newitem.freq < parent.freq then
          siftdownLoop fuel (heap.set pos parent) startpos parentpos newitem
        else
          heap.set pos newitem
      else
        heap.set pos newitem

/-- `heapq._siftdown(heap, startpos, pos)`. -/
def siftdown (heap : List HuffmanNode) (startpos pos : Nat) :
    List HuffmanNode :=
  siftdownLoop pos heap startpos pos (heap.getD pos default)

/-- The `while childpos < endpos` loop of `heapq._siftup`, fuel-counted;
it returns the final heap together with the final `pos`.  `pos` strictly
increases across iterations while staying below `endpos`, so any fuel
`≥ endpos` makes the embedding agree with the Python loop. -/
def siftupLoop : Nat → List HuffmanNode → Nat → Nat →
    List HuffmanNode × Nat
  | 0, heap, pos, _ => (heap, pos)
  | fuel + 1, heap, pos, endpos =>
      let childpos := 2 * pos + 1
      if childpos < endpos then
        let rightpos := childpos + 1
        let childpos :=
          if rightpos < endpos ∧
              ¬ (heap.getD childpos default).freq <
                (heap.getD rightpos default).freq then
            rightpos
          else childpos
        siftupLoop fuel (heap.set pos (heap.getD childpos default))
          childpos endpos
      else
        (heap, pos)

/-- `heapq._siftup(heap, pos)`:  walk the smaller-child path down to a leaf,
then place the dislodged item with `_siftdown`. -/
def siftup (heap : List HuffmanNode) (pos : Nat) : List HuffmanNode :=
  let endpos := heap.length
  let newitem := heap.getD pos default
  let fin := siftupLoop endpos heap pos endpos
  siftdown (fin.1.set fin.2 newitem) pos fin.2

/-- The `for i in reversed(range(n//2))` loop of `heapq.heapify`:
`heapifyLoop k` runs `_siftup` at positions `k-1, k-2, …, 0`. -/
def heapifyLoop : Nat → List HuffmanNode → List HuffmanNode
  | 0, heap => heap
  | i + 1, heap => heapifyLoop i (siftup heap i)

/-- `heapq.heapify`. -/
def heapify (heap : List HuffmanNode) : List HuffmanNode :=
  heapifyLoop (heap.length / 2) heap

/-- `heapq.heappush`. -/
def heappush (heap : List HuffmanNode) (item : HuffmanNode) :
    List HuffmanNode :=
  siftdown (heap ++ [item]) 0 heap.length

/-- `heapq.heappop`: `none` is the `IndexError` raised by `heap.pop()` on an
empty list.  On `[x]` the popped last element is returned directly; otherwise
the root is returned, the last element moves to the root slot and is sifted. -/
def heappop (heap : List HuffmanNode) :
    Option (HuffmanNode × List HuffmanNode) :=
  match heap.getLast? with
  | none => none
  | some lastelt =>
      let rest := heap.dropLast
      if rest.isEmpty then some (lastelt, rest)
      else some (rest.getD 0 default, siftup (rest.set 0 lastelt) 0)

/-- The `while len(priority_queue) > 1` loop of `build_huffman_tree`,
fuel-counted.  Each iteration shrinks the queue by one element, so any fuel
`≥` the queue length makes the embedding agree with the Python loop.  The
inner `none` branches are unreachable: `heappop` succeeds on the non-empty
queues the loop hands it. -/
def buildLoop : Nat → List HuffmanNode → List HuffmanNode
  | 0, q => q
  | fuel + 1, q =>
      if 1 < q.length then
        match heappop q with
        | none => q
        | some (left, q1) =>
            match heappop q1 with
            | none => q1
            | some (right, q2) =>
                buildLoop fuel (heappush q2
                  (.mk none (left.freq + right.freq) (some left) (some right)))
      else q

/-- `build_huffman_tree` of `kompresor.py`: `none` is the `IndexError` of the
final `priority_queue[0]` on an empty queue. -/
def build_huffman_tree (frequency : List (Char × Nat)) : Option HuffmanNode :=
  let priority_queue := frequency.map fun p => HuffmanNode.mk (some p.1) p.2 none none
  let priority_queue := heapify priority_queue
  match buildLoop priority_queue.length priority_queue with
  | [] => none
  | root :: _ => some root

/-- The body of `_build_codes_helper(node, current_code)` on a present node,
threading the `codes` dict: `if node.char:` holds exactly when `char` is not
`None` (a present symbol is a one-character string, which is truthy), and
the recursive calls on the children run the `if node:` guard of the helper,
here fused into the match on the optional child. -/
def buildCodesGo : HuffmanNode → List Bool →
    List (Char × List Bool) → List (Char × List Bool)
  | .mk c _ l r, current_code, codes =>
      let codes := match c with
        | some ch => dictInsert codes ch current_code
        | none => codes
      let codes := match l with
        | some t => buildCodesGo t (current_code ++ [false]) codes
        | none => codes
      match r with
      | some t => buildCodesGo t (current_code ++ [true]) codes
      | none => codes
termination_by structural t => t

/-- The recursive helper `_build_codes_helper(node, current_code)` of
`build_codes`: `if node:` guards the body. -/
def buildCodesHelper : Option HuffmanNode → List Bool →
    List (Char × List Bool) → List (Char × List Bool)
  | none, _, codes => codes
  | some t, current_code, codes => buildCodesGo t current_code codes

/-- `build_codes` of `kompresor.py`. -/
def build_codes (root : HuffmanNode) : List (Char × List Bool) :=
  buildCodesHelper (some root) [] []

/-- Value of the bit string as a binary numeral: `int(s, 2)`. -/
def bitsToNat (s : List Bool) : Nat :=
  s.foldl (fun acc b => 2 * acc + (if b then 1 else 0)) 0

/-- The `w`-digit binary rendering of `n`, most significant bit first:
`f-string` formatting `{n:0wb}` for `n < 2^w`. -/
def natToBits : Nat → Nat → List Bool
  | 0, _ => []
  | w + 1, n => natToBits w (n / 2) ++ [n % 2 == 1]

/-- The concatenation `"".join(codes[char] for char in data)`: `none` is the
`KeyError` on a symbol absent from the code table. -/
def joinedCodes (data : List Char) (codes : List (Char × List Bool)) :
    Option (List Bool) :=
  match data with
  | [] => some []
  | c :: rest => do
      let code ← dictLookup codes c
      let tail ← joinedCodes rest codes
      pure (code ++ tail)

/-- `encode_data` of `kompresor.py`.  Note `padding = 8 - len % 8` lies in
`1..8`: a full byte of padding is appended even when the code bits are
already byte aligned. -/
def encode_data (data : List Char) (codes : List (Char × List Bool)) :
    Option (List Bool) := do
  let encoded_data ← joinedCodes data codes
  let padding := 8 - encoded_data.length % 8
  pure (natToBits 8 padding ++ encoded_data ++ List.replicate padding false)

/-- The bit-consuming loop of `decode_data`: step to `left` on `0` and
`right` on `1`; a `None` child makes the subsequent `current_node.char`
attribute access raise (`none` here); a node with a symbol emits it and
resets the walk to the root. -/
def decodeWalk (root : HuffmanNode) : HuffmanNode → List Char → List Bool →
    Option (List Char)
  | _, acc, [] => some acc
  | current, acc, bit :: rest =>
      match (if bit = false then current.left else current.right) with
      | none => none
      | some next =>
          match next.char with
          | some ch => decodeWalk root root (acc ++ [ch]) rest
          | none => decodeWalk root next acc rest

/-- `decode_data` of `kompresor.py`.  `int(encoded_data[:8], 2)` raises on an
empty stream (`none`); the slice `encoded_data[8:-padding]` is empty whenever
`padding = 0` (Python `s[8:-0]` is `s[8:0]`) and otherwise clamps to the
empty string when fewer than `8 + padding` bits are present. -/
def decode_data (encoded_data : List Bool) (root : HuffmanNode) :
    Option (List Char) :=
  match encoded_data with
  | [] => none
  | _ =>
      let padding := bitsToNat (encoded_data.take 8)
      let payload :=
        if padding = 0 then []
        else (encoded_data.take (encoded_data.length - padding)).drop 8
      decodeWalk root root [] payload

/-! ## List utilities -/

/-- `List.getD` at an in-range index is the indexed element. -/
lemma getD_lt {α : Type} (l : List α) (d : α) (i : Nat) (h : i < l.length) :
    l.getD i d = l[i] := by
  simp [List.getD_eq_getElem?_getD, List.getElem?_eq_getElem h]

/-- Overwriting an in-range position with its own value changes nothing. -/
lemma set_self {α : Type} (l : List α) (d : α) (i : Nat) (h : i < l.length) :
    l.set i (l.getD i d) = l := by
  induction l generalizing i with
  | nil => simp
  | cons x t ih =>
      cases i with
      | zero => rfl
      | succ i =>
          have h' : i < t.length := by simpa using h
          calc (x :: t).set (i + 1) ((x :: t).getD (i + 1) d)
              = x :: t.set i (t.getD i d) := rfl
            _ = x :: t := by rw [ih i h']

open List in
/-- Exchanging the fresh values written at a single position produces
permuted lists. -/
private lemma cons_set_perm {α : Type} (t : List α) (m : Nat) (hm : m < t.length)
    (x y : α) : List.Perm (x :: t.set m y) (y :: t.set m x) := by
  induction t generalizing m with
  | nil => simp at hm
  | cons z s ih =>
      cases m with
      | zero => simpa using List.Perm.swap y x s
      | succ m =>
          have hm' : m < s.length := by simpa using hm
          calc x :: (z :: s).set (m + 1) y
              = x :: z :: s.set m y := by simp
            _ ~ z :: x :: s.set m y := List.Perm.swap z x _
            _ ~ z :: y :: s.set m x := (ih m hm').cons z
            _ ~ y :: z :: s.set m x := List.Perm.swap y z _
            _ = y :: (z :: s).set (m + 1) x := by simp

open List in
/-- Moving the value at position `j` into position `i` and then overwriting
position `j` permutes with overwriting position `i` directly. -/
lemma set_set_perm_set {α : Type} (l : List α) (d : α) (i j : Nat)
    (hi : i < l.length) (hj : j < l.length) (hij : i ≠ j) (a : α) :
    List.Perm ((l.set i (l.getD j d)).set j a) (l.set i a) := by
  induction l generalizing i j with
  | nil => simp at hi
  | cons x t ih =>
      cases i with
      | zero =>
          cases j with
          | zero => exact absurd rfl hij
          | succ k =>
              have hk : k < t.length := by simpa using hj
              have h1 : ((x :: t).set 0 ((x :: t).getD (k + 1) d)).set (k + 1) a
                  = (t.getD k d) :: t.set k a := by simp [List.getD]
              have h2 : (x :: t).set 0 a = a :: t := by simp
              rw [h1, h2]
              have := cons_set_perm t k hk (t.getD k d) a
              calc (t.getD k d) :: t.set k a
                  ~ a :: t.set k (t.getD k d) := this
                _ = a :: t := by rw [set_self t d k hk]
      | succ m =>
          cases j with
          | zero =>
              have hm : m < t.length := by simpa using hi
              have h1 : ((x :: t).set (m + 1) ((x :: t).getD 0 d)).set 0 a
                  = a :: t.set m x := by simp [List.getD]
              have h2 : (x :: t).set (m + 1) a = x :: t.set m a := by simp
              rw [h1, h2]
              exact cons_set_perm t m hm a x
          | succ k =>
              have hm : m < t.length := by simpa using hi
              have hk : k < t.length := by simpa using hj
              have hmk : m ≠ k := fun h => hij (by rw [h])
              have h1 : ((x :: t).set (m + 1) ((x :: t).getD (k + 1) d)).set (k + 1) a
                  = x :: (t.set m (t.getD k d)).set k a := by simp [List.getD]
              have h2 : (x :: t).set (m + 1) a = x :: t.set m a := by simp
              rw [h1, h2]
              exact (ih m k hm hk hmk).cons x

/-! ## Length and permutation facts for the heap routines -/

open List

lemma siftdownLoop_length (fuel : Nat) (heap : List HuffmanNode)
    (startpos pos : Nat) (item : HuffmanNode) :
    (siftdownLoop fuel heap startpos pos item).length = heap.length := by
  induction fuel generalizing heap pos with
  | zero => simp [siftdownLoop]
  | succ fuel ih =>
      simp only [siftdownLoop]
      split
      · split
        · rw [ih]; simp
        · simp
      · simp

lemma siftdownLoop_perm (fuel : Nat) (heap : List HuffmanNode)
    (startpos pos : Nat) (item : HuffmanNode) (hp : pos < heap.length) :
    List.Perm (siftdownLoop fuel heap startpos pos item) (heap.set pos item) := by
  induction fuel generalizing heap pos with
  | zero => simp [siftdownLoop]
  | succ fuel ih =>
      simp only [siftdownLoop]
      split
      · split
        · rename_i hsp _
          have hpar : (pos - 1) / 2 < pos := by omega
          have hpar' : (pos - 1) / 2 < heap.length := lt_trans hpar hp
          have hlen : (pos - 1) / 2 < (heap.set pos (heap.getD ((pos - 1) / 2) default)).length := by
            simpa using hpar'
          calc siftdownLoop fuel (heap.set pos (heap.getD ((pos - 1) / 2) default))
                startpos ((pos - 1) / 2) item
              ~ (heap.set pos (heap.getD ((pos - 1) / 2) default)).set ((pos - 1) / 2) item :=
                ih _ _ hlen
            _ ~ heap.set pos item :=
                set_set_perm_set heap default pos ((pos - 1) / 2) hp hpar'
                  (Nat.ne_of_gt hpar) item
        · exact List.Perm.refl _
      · exact List.Perm.refl _

lemma siftdown_length (heap : List HuffmanNode) (startpos pos : Nat) :
    (siftdown heap startpos pos).length = heap.length :=
  siftdownLoop_length _ _ _ _ _

lemma siftdown_perm (heap : List HuffmanNode) (startpos pos : Nat)
    (hp : pos < heap.length) : List.Perm (siftdown heap startpos pos) heap := by
  unfold siftdown
  calc siftdownLoop pos heap startpos pos (heap.getD pos default)
      ~ heap.set pos (heap.getD pos default) := siftdownLoop_perm _ _ _ _ _ hp
    _ = heap := set_self heap default pos hp

lemma siftupLoop_length (fuel : Nat) (heap : List HuffmanNode)
    (pos endpos : Nat) :
    (siftupLoop fuel heap pos endpos).1.length = heap.length := by
  induction fuel generalizing heap pos with
  | zero => simp [siftupLoop]
  | succ fuel ih =>
      simp only [siftupLoop]
      split
      · rw [ih]; simp
      · simp

lemma siftupLoop_pos_lt (fuel : Nat) (heap : List HuffmanNode)
    (pos endpos : Nat) (hp : pos < endpos) :
    (siftupLoop fuel heap pos endpos).2 < endpos := by
  induction fuel generalizing heap pos with
  | zero => simpa [siftupLoop]
  | succ fuel ih =>
      simp only [siftupLoop]
      split
      · rename_i hchild
        split
        · rename_i hcond
          exact ih _ _ hcond.1
        · exact ih _ _ hchild
      · simpa

lemma siftupLoop_perm (fuel : Nat) (heap : List HuffmanNode)
    (pos endpos : Nat) (hp : pos < endpos) (he : endpos ≤ heap.length)
    (item : HuffmanNode) :
    List.Perm ((siftupLoop fuel heap pos endpos).1.set
      (siftupLoop fuel heap pos endpos).2 item) (heap.set pos item) := by
  induction fuel generalizing heap pos with
  | zero => simp [siftupLoop]
  | succ fuel ih =>
      have step : ∀ cp : Nat, pos < cp → cp < endpos →
          List.Perm ((siftupLoop fuel (heap.set pos (heap.getD cp default))
              cp endpos).1.set
            (siftupLoop fuel (heap.set pos (heap.getD cp default))
              cp endpos).2 item) (heap.set pos item) := by
        intro cp hpcp hcpe
        have hcpl : cp < heap.length := lt_of_lt_of_le hcpe he
        have hpl : pos < heap.length := lt_of_lt_of_le hp he
        have he' : endpos ≤ (heap.set pos (heap.getD cp default)).length := by
          simpa using he
        calc ((siftupLoop fuel (heap.set pos (heap.getD cp default))
                cp endpos).1.set
              (siftupLoop fuel (heap.set pos (heap.getD cp default))
                cp endpos).2 item)
            ~ (heap.set pos (heap.getD cp default)).set cp item :=
              ih _ _ hcpe he'
          _ ~ heap.set pos item :=
              set_set_perm_set heap default pos cp hpl hcpl
                (Nat.ne_of_lt hpcp) item
      simp only [siftupLoop]
      split
      · rename_i hchild
        split
        · rename_i hcond
          exact step (2 * pos + 1 + 1) (by omega) hcond.1
        · exact step (2 * pos + 1) (by omega) hchild
      · simp

lemma siftup_length (heap : List HuffmanNode) (pos : Nat) :
    (siftup heap pos).length = heap.length := by
  unfold siftup
  rw [siftdown_length, List.length_set, siftupLoop_length]

lemma siftup_perm (heap : List HuffmanNode) (pos : Nat)
    (hp : pos < heap.length) : List.Perm (siftup heap pos) heap := by
  unfold siftup
  have h2 : (siftupLoop heap.length heap pos heap.length).2 < heap.length :=
    siftupLoop_pos_lt _ _ _ _ hp
  have h2' : (siftupLoop heap.length heap pos heap.length).2 <
      ((siftupLoop heap.length heap pos heap.length).1.set
        (siftupLoop heap.length heap pos heap.length).2
        (heap.getD pos default)).length := by
    rw [List.length_set, siftupLoop_length]; exact h2
  calc siftdown ((siftupLoop heap.length heap pos heap.length).1.set
        (siftupLoop heap.length heap pos heap.length).2 (heap.getD pos default))
        pos (siftupLoop heap.length heap pos heap.length).2
      ~ (siftupLoop heap.length heap pos heap.length).1.set
          (siftupLoop heap.length heap pos heap.length).2 (heap.getD pos default) :=
        siftdown_perm _ _ _ h2'
    _ ~ heap.set pos (heap.getD pos default) :=
        siftupLoop_perm _ _ _ _ hp (le_refl _) _
    _ = heap := set_self heap default pos hp

lemma heapifyLoop_length (k : Nat) (heap : List HuffmanNode) :
    (heapifyLoop k heap).length = heap.length := by
  induction k generalizing heap with
  | zero => rfl
  | succ k ih => rw [heapifyLoop, ih, siftup_length]

lemma heapifyLoop_perm (k : Nat) (heap : List HuffmanNode)
    (hk : k ≤ heap.length) : List.Perm (heapifyLoop k heap) heap := by
  induction k generalizing heap with
  | zero => exact List.Perm.refl _
  | succ k ih =>
      rw [heapifyLoop]
      have h1 : k < heap.length := hk
      calc heapifyLoop k (siftup heap k)
          ~ siftup heap k := ih _ (by rw [siftup_length]; omega)
        _ ~ heap := siftup_perm heap k h1

lemma heapify_length (heap : List HuffmanNode) :
    (heapify heap).length = heap.length := heapifyLoop_length _ _

lemma heapify_perm (heap : List HuffmanNode) :
    List.Perm (heapify heap) heap :=
  heapifyLoop_perm _ _ (by omega)

lemma heappush_length (heap : List HuffmanNode) (item : HuffmanNode) :
    (heappush heap item).length = heap.length + 1 := by
  unfold heappush
  rw [siftdown_length]; simp

lemma heappush_perm (heap : List HuffmanNode) (item : HuffmanNode) :
    List.Perm (heappush heap item) (heap ++ [item]) :=
  siftdown_perm _ _ _ (by simp)

lemma heappop_none (heap : List HuffmanNode) :
    heappop heap = none ↔ heap = [] := by
  unfold heappop
  cases h : heap.getLast? with
  | none => simpa using List.getLast?_eq_none_iff.mp h
  | some x =>
      have : heap ≠ [] := by
        intro he; rw [he] at h; simp at h
      simp only [this, iff_false]
      split <;> simp

lemma heappop_length (heap : List HuffmanNode) (x : HuffmanNode)
    (rest : List HuffmanNode) (h : heappop heap = some (x, rest)) :
    rest.length + 1 = heap.length := by
  unfold heappop at h
  cases hl : heap.getLast? with
  | none => rw [hl] at h; exact absurd h (by simp)
  | some lastelt =>
      rw [hl] at h
      have hne : heap ≠ [] := by
        intro he; rw [he] at hl; simp at hl
      have hdl : heap.dropLast.length + 1 = heap.length := by
        rw [List.length_dropLast]
        have := List.length_pos.mpr hne
        omega
      by_cases hr : heap.dropLast.isEmpty
      · simp only [hr, if_true] at h
        cases h
        simpa using hdl
      · simp only [hr, if_false] at h
        cases h
        rw [siftup_length, List.length_set]
        exact hdl

open List in
lemma heappop_perm (heap : List HuffmanNode) (x : HuffmanNode)
    (rest : List HuffmanNode) (h : heappop heap = some (x, rest)) :
    List.Perm (x :: rest) heap := by
  induction heap using List.reverseRecOn with
  | nil => rw [heappop] at h; simp at h
  | append_singleton as a _ =>
      rw [heappop] at h
      rw [List.getLast?_concat] at h
      simp only [List.dropLast_concat] at h
      cases as with
      | nil =>
          simp at h
          rw [h.1, h.2]
          exact List.Perm.refl _
      | cons hd tl =>
          have hne : ¬ (hd :: tl).isEmpty := by simp
          simp only [hne, if_false] at h
          cases h
          have hgd : (hd :: tl).getD 0 default = hd := rfl
          rw [hgd]
          have hset : (hd :: tl).set 0 a = a :: tl := rfl
          have hp1 : List.Perm (siftup ((hd :: tl).set 0 a) 0) (a :: tl) := by
            rw [hset] at *
            exact siftup_perm (a :: tl) 0 (by simp)
          calc hd :: siftup ((hd :: tl).set 0 a) 0
              ~ hd :: (a :: tl) := hp1.cons hd
            _ ~ hd :: (tl ++ [a]) := (List.perm_append_singleton a tl).symm.cons hd
            _ = (hd :: tl) ++ [a] := rfl

/-! ## The queue invariant of `buildLoop` -/

/-- The multiset of (symbol, frequency) pairs at the nodes of a tree that
carry a symbol — for the trees the program builds, exactly its leaves. -/
def entriesH : HuffmanNode → List (Char × Nat)
  | .mk c f l r =>
      (match c with | some ch => [(ch, f)] | none => []) ++
      (match l with | some t => entriesH t | none => []) ++
      (match r with | some t => entriesH t | none => [])
termination_by structural t => t

/-- Well-formedness of the trees the program builds: a leaf carries exactly
one symbol and no children; an internal node carries no symbol, exactly two
children, and the sum of their frequencies. -/
inductive WFTree : HuffmanNode → Prop where
  | leaf (c : Char) (f : Nat) : WFTree (.mk (some c) f none none)
  | node (l r : HuffmanNode) : WFTree l → WFTree r →
      WFTree (.mk none (l.freq + r.freq) (some l) (some r))

/-- The joined symbol/frequency entries of every tree in a queue. -/
def entriesQ (q : List HuffmanNode) : Multiset (Char × Nat) :=
  ((q.map entriesH).flatten : List (Char × Nat))

lemma entriesQ_perm (q q' : List HuffmanNode) (h : List.Perm q q') :
    entriesQ q = entriesQ q' := by
  unfold entriesQ
  exact Multiset.coe_eq_coe.mpr ((h.map entriesH).flatten)

lemma entriesQ_cons (x : HuffmanNode) (q : List HuffmanNode) :
    entriesQ (x :: q) = (entriesH x : Multiset (Char × Nat)) + entriesQ q := by
  unfold entriesQ
  simp

lemma mem_of_perm_all {α : Type} (P : α → Prop) (q q' : List α)
    (h : List.Perm q q') (hall : ∀ x ∈ q, P x) : ∀ x ∈ q', P x :=
  fun x hx => hall x (h.symm.subset hx)

lemma buildLoop_length (fuel : Nat) (q : List HuffmanNode) :
    (buildLoop fuel q).length = if q.length ≤ fuel ∧ 1 ≤ q.length then 1
      else q.length - fuel := by
  induction fuel generalizing q with
  | zero =>
      simp only [buildLoop]
      split <;> omega
  | succ fuel ih =>
      rw [buildLoop]
      split
      · rename_i hq
        split
        · rename_i hp
          rw [heappop_none] at hp
          rw [hp] at hq; simp at hq
        · rename_i left q1 hp
          split
          · rename_i hp1
            rw [heappop_none] at hp1
            have := heappop_length _ _ _ hp
            rw [hp1] at this ⊢
            simp at this
            simp
            omega
          · rename_i right q2 hp1
            have l1 := heappop_length _ _ _ hp
            have l2 := heappop_length _ _ _ hp1
            rw [ih, heappush_length]
            split <;> split <;> omega
      · rename_i hq
        split <;> omega

/-- All queue members are well-formed trees across a `buildLoop` run. -/
lemma buildLoop_all_wf (fuel : Nat) (q : List HuffmanNode)
    (hall : ∀ x ∈ q, WFTree x) : ∀ x ∈ buildLoop fuel q, WFTree x := by
  induction fuel generalizing q with
  | zero => simpa [buildLoop]
  | succ fuel ih =>
      rw [buildLoop]
      split
      · split
        · exact hall
        · rename_i left q1 hp
          have h1 : ∀ x ∈ left :: q1, WFTree x :=
            fun x hx => hall x ((heappop_perm _ _ _ hp).subset hx)
          have hleft : WFTree left := h1 left (by simp)
          have hq1 : ∀ x ∈ q1, WFTree x := fun x hx => h1 x (by simp [hx])
          split
          · exact hq1
          · rename_i right q2 hp1
            have h2 : ∀ x ∈ right :: q2, WFTree x :=
              fun x hx => hq1 x ((heappop_perm _ _ _ hp1).subset hx)
            have hright : WFTree right := h2 right (by simp)
            have hq2 : ∀ x ∈ q2, WFTree x := fun x hx => h2 x (by simp [hx])
            apply ih
            intro x hx
            have hx' := (heappush_perm q2 _).subset hx
            rcases List.mem_append.mp hx' with hx' | hx'
            · exact hq2 x hx'
            · rw [List.mem_singleton.mp hx']
              exact WFTree.node left right hleft hright
      · exact hall

/-- `buildLoop` preserves the joined entry multiset of the queue. -/
lemma buildLoop_entries (fuel : Nat) (q : List HuffmanNode) :
    entriesQ (buildLoop fuel q) = entriesQ q := by
  induction fuel generalizing q with
  | zero => rfl
  | succ fuel ih =>
      rw [buildLoop]
      split
      · rename_i hq
        split
        · rfl
        · rename_i left q1 hp
          have e1 := entriesQ_perm _ _ (heappop_perm _ _ _ hp)
          rw [entriesQ_cons] at e1
          split
          · rename_i hp1
            rw [heappop_none] at hp1
            subst hp1
            have hlen := (heappop_perm _ _ _ hp).length_eq
            simp at hlen
            omega
          · rename_i right q2 hp1
            have e2 := entriesQ_perm _ _ (heappop_perm _ _ _ hp1)
            rw [entriesQ_cons] at e2
            rw [ih]
            have e0 := entriesQ_perm _ _ (heappush_perm q2
              (.mk none (left.freq + right.freq) (some left) (some right)))
            rw [e0]
            have em : entriesH (HuffmanNode.mk none (left.freq + right.freq)
                (some left) (some right)) = entriesH left ++ entriesH right := by
              simp [entriesH]
            have eq2 : entriesQ (q2 ++ [HuffmanNode.mk none
                (left.freq + right.freq) (some left) (some right)]) =
                entriesQ q2 + ((entriesH left ++ entriesH right : List (Char × Nat)) :
                  Multiset (Char × Nat)) := by
              unfold entriesQ
              simp [em]
            rw [eq2]
            rw [← e1, ← e2]
            simp [add_comm, add_assoc, add_left_comm]
      · rfl

/-! ## Facts about `build_huffman_tree` -/

lemma build_huffman_tree_nil : build_huffman_tree [] = none := rfl

lemma build_huffman_tree_isSome (frequency : List (Char × Nat))
    (h : frequency ≠ []) : (build_huffman_tree frequency).isSome := by
  unfold build_huffman_tree
  dsimp only
  have hlen0 : (frequency.map fun p => HuffmanNode.mk (some p.1) p.2 none none).length
      = frequency.length := by simp
  have hlen1 : (heapify (frequency.map fun p =>
      HuffmanNode.mk (some p.1) p.2 none none)).length = frequency.length := by
    rw [heapify_length, hlen0]
  have hfl : 1 ≤ frequency.length := List.length_pos.mpr h
  have hfin := buildLoop_length
    (heapify (frequency.map fun p => HuffmanNode.mk (some p.1) p.2 none none)).length
    (heapify (frequency.map fun p => HuffmanNode.mk (some p.1) p.2 none none))
  rw [if_pos (by rw [hlen1]; omega)] at hfin
  split
  · rename_i heq
    rw [heq] at hfin
    simp at hfin
  · simp

/-- The queue that seeds the heap: one leaf per table entry. -/
lemma entriesQ_seed (frequency : List (Char × Nat)) :
    entriesQ (frequency.map fun p => HuffmanNode.mk (some p.1) p.2 none none)
      = (frequency : Multiset (Char × Nat)) := by
  unfold entriesQ
  congr 1
  induction frequency with
  | nil => rfl
  | cons p rest ih =>
      simp only [List.map_cons, List.flatten_cons, ih]
      simp [entriesH]

lemma build_huffman_tree_wf (frequency : List (Char × Nat))
    (root : HuffmanNode) (h : build_huffman_tree frequency = some root) :
    WFTree root := by
  unfold build_huffman_tree at h
  dsimp only at h
  split at h
  · exact absurd h (by simp)
  · rename_i x rest heq
    have hall : ∀ y ∈ heapify (frequency.map fun p =>
        HuffmanNode.mk (some p.1) p.2 none none), WFTree y := by
      intro y hy
      have hy' := (heapify_perm _).subset hy
      obtain ⟨p, _, hp⟩ := List.mem_map.mp hy'
      rw [← hp]
      exact WFTree.leaf p.1 p.2
    have hfin := buildLoop_all_wf
      (heapify (frequency.map fun p =>
        HuffmanNode.mk (some p.1) p.2 none none)).length _ hall
    cases h
    have hmem : root ∈ root :: rest := List.mem_cons_self _ _
    rw [← heq] at hmem
    exact hfin _ hmem

lemma build_huffman_tree_entries (frequency : List (Char × Nat))
    (root : HuffmanNode) (h : build_huffman_tree frequency = some root) :
    (entriesH root : Multiset (Char × Nat)) = (frequency : Multiset (Char × Nat)) := by
  unfold build_huffman_tree at h
  dsimp only at h
  split at h
  · exact absurd h (by simp)
  · rename_i x rest heq
    cases h
    have e1 : entriesQ (root :: rest) = (frequency : Multiset (Char × Nat)) := by
      rw [← heq, buildLoop_entries,
        entriesQ_perm _ _ (heapify_perm _), entriesQ_seed]
    have hrest : rest = [] := by
      rcases frequency with _ | ⟨p0, frest⟩
      · simp [heapify, heapifyLoop, buildLoop] at heq
      · have hlenfin := buildLoop_length
          (heapify ((p0 :: frest).map fun p =>
            HuffmanNode.mk (some p.1) p.2 none none)).length
          (heapify ((p0 :: frest).map fun p =>
            HuffmanNode.mk (some p.1) p.2 none none))
        rw [heq] at hlenfin
        rw [if_pos (by rw [heapify_length]; simp)] at hlenfin
        simpa using hlenfin
    have e0 : entriesQ ([] : List HuffmanNode) = 0 := rfl
    rw [hrest, entriesQ_cons, e0, add_zero] at e1
    exact e1

/-! ## Facts about `build_frequency_dict` -/

lemma bump_sum (d : List (Char × Nat)) (c : Char) :
    ((bump d c).map Prod.snd).sum = (d.map Prod.snd).sum + 1 := by
  induction d with
  | nil => simp [bump]
  | cons p rest ih =>
      obtain ⟨k, v⟩ := p
      rw [bump]
      split
      · simp [Nat.add_assoc, Nat.add_comm, Nat.add_left_comm]
      · simp [ih, Nat.add_assoc, Nat.add_comm, Nat.add_left_comm]

lemma bump_keys (d : List (Char × Nat)) (c a : Char) :
    a ∈ (bump d c).map Prod.fst ↔ a ∈ d.map Prod.fst ∨ a = c := by
  induction d with
  | nil => simp [bump]
  | cons p rest ih =>
      obtain ⟨k, v⟩ := p
      rw [bump]
      split
      · rename_i hk
        subst hk
        simp
        tauto
      · simp [ih]
        tauto

lemma bump_nodup (d : List (Char × Nat)) (c : Char)
    (h : (d.map Prod.fst).Nodup) : ((bump d c).map Prod.fst).Nodup := by
  induction d with
  | nil => simp [bump]
  | cons p rest ih =>
      obtain ⟨k, v⟩ := p
      simp only [List.map_cons, List.nodup_cons] at h
      rw [bump]
      split
      · rename_i hk
        subst hk
        simpa using h
      · rename_i hk
        simp only [List.map_cons, List.nodup_cons]
        constructor
        · intro hmem
          rcases (bump_keys rest c k).mp hmem with h1 | h1
          · exact h.1 h1
          · exact hk h1
        · exact ih h.2

lemma foldl_bump_sum (data : List Char) : ∀ d : List (Char × Nat),
    ((data.foldl bump d).map Prod.snd).sum = (d.map Prod.snd).sum + data.length := by
  induction data with
  | nil => intro d; simp
  | cons c rest ih =>
      intro d
      rw [List.foldl_cons, ih, bump_sum]
      simp
      omega

lemma foldl_bump_keys (data : List Char) : ∀ (d : List (Char × Nat)) (a : Char),
    a ∈ (data.foldl bump d).map Prod.fst ↔ a ∈ d.map Prod.fst ∨ a ∈ data := by
  induction data with
  | nil => intro d a; simp
  | cons c rest ih =>
      intro d a
      rw [List.foldl_cons, ih, bump_keys]
      simp
      tauto

lemma foldl_bump_nodup (data : List Char) : ∀ d : List (Char × Nat),
    (d.map Prod.fst).Nodup → ((data.foldl bump d).map Prod.fst).Nodup := by
  induction data with
  | nil => intro d h; exact h
  | cons c rest ih => intro d h; exact ih _ (bump_nodup d c h)

lemma build_frequency_dict_sum (data : List Char) :
    ((build_frequency_dict data).map Prod.snd).sum = data.length := by
  unfold build_frequency_dict
  rw [foldl_bump_sum]
  simp

lemma build_frequency_dict_keys (data : List Char) (a : Char) :
    a ∈ (build_frequency_dict data).map Prod.fst ↔ a ∈ data := by
  unfold build_frequency_dict
  rw [foldl_bump_keys]
  simp

lemma build_frequency_dict_nodup (data : List Char) :
    ((build_frequency_dict data).map Prod.fst).Nodup := by
  unfold build_frequency_dict
  exact foldl_bump_nodup data [] (by simp)

lemma build_frequency_dict_nil : build_frequency_dict [] = [] := rfl

lemma build_frequency_dict_ne_nil (data : List Char) (h : data ≠ []) :
    build_frequency_dict data ≠ [] := by
  intro hempty
  rcases data with _ | ⟨c, rest⟩
  · exact h rfl
  · have := (build_frequency_dict_keys (c :: rest) c).mpr (by simp)
    rw [hempty] at this
    simp at this

/-! ## Facts about `build_codes` -/

/-- The plain pre-order list of (symbol, root-to-leaf path) pairs of a tree,
each path extending the accumulated path `cur`. -/
def pathList : HuffmanNode → List Bool → List (Char × List Bool)
  | .mk c _ l r, cur =>
      (match c with | some ch => [(ch, cur)] | none => []) ++
      (match l with | some t => pathList t (cur ++ [false]) | none => []) ++
      (match r with | some t => pathList t (cur ++ [true]) | none => [])
termination_by structural t => t

/-- Folding `dictInsert` over a list of assignments. -/
def dictInsertAll (d : List (Char × List Bool))
    (es : List (Char × List Bool)) : List (Char × List Bool) :=
  es.foldl (fun acc e => dictInsert acc e.1 e.2) d

lemma dictInsertAll_append (d es1 es2 : List (Char × List Bool)) :
    dictInsertAll d (es1 ++ es2) = dictInsertAll (dictInsertAll d es1) es2 :=
  List.foldl_append _ _ _ _

/-- On a well-formed tree the helper of `build_codes` performs exactly the
pre-order sequence of dict assignments described by `pathList`. -/
lemma buildCodesHelper_eq (t : HuffmanNode) (hwf : WFTree t) :
    ∀ cur codes, buildCodesHelper (some t) cur codes
      = dictInsertAll codes (pathList t cur) := by
  induction hwf with
  | leaf c f =>
      intro cur codes
      simp [buildCodesHelper, buildCodesGo, pathList, dictInsertAll]
  | node l r hl hr ihl ihr =>
      intro cur codes
      simp only [buildCodesHelper] at ihl ihr
      simp only [buildCodesHelper, buildCodesGo]
      rw [ihl, ihr]
      rw [show pathList (.mk none (l.freq + r.freq) (some l) (some r)) cur
          = pathList l (cur ++ [false]) ++ pathList r (cur ++ [true]) from by
        simp [pathList]]
      rw [dictInsertAll_append]

lemma entriesH_leaf (c : Char) (f : Nat) :
    entriesH (.mk (some c) f none none) = [(c, f)] := rfl

lemma entriesH_node (f : Nat) (l r : HuffmanNode) :
    entriesH (.mk none f (some l) (some r)) = entriesH l ++ entriesH r := by
  simp [entriesH]

lemma pathList_keys (t : HuffmanNode) (hwf : WFTree t) : ∀ cur,
    (pathList t cur).map Prod.fst = (entriesH t).map Prod.fst := by
  induction hwf with
  | leaf c f => intro cur; simp [pathList, entriesH_leaf]
  | node l r hl hr ihl ihr =>
      intro cur
      rw [show pathList (.mk none (l.freq + r.freq) (some l) (some r)) cur
          = pathList l (cur ++ [false]) ++ pathList r (cur ++ [true]) from by
        simp [pathList]]
      rw [entriesH_node]
      simp [ihl, ihr]

lemma dictInsert_fresh (d : List (Char × List Bool)) (k : Char) (v : List Bool)
    (h : k ∉ d.map Prod.fst) : dictInsert d k v = d ++ [(k, v)] := by
  induction d with
  | nil => rfl
  | cons e rest ih =>
      obtain ⟨k', v'⟩ := e
      simp only [List.map_cons, List.mem_cons] at h
      push_neg at h
      rw [dictInsert, if_neg (fun hk => h.1 hk.symm)]
      simp [ih h.2]

lemma dictInsertAll_fresh (es : List (Char × List Bool)) :
    ∀ d, (es.map Prod.fst).Nodup →
    (∀ k ∈ es.map Prod.fst, k ∉ d.map Prod.fst) →
    dictInsertAll d es = d ++ es := by
  induction es with
  | nil => intro d _ _; simp [dictInsertAll]
  | cons e rest ih =>
      intro d hnd hdisj
      obtain ⟨k, v⟩ := e
      simp only [List.map_cons, List.nodup_cons] at hnd
      have hfresh : k ∉ d.map Prod.fst := hdisj k (by simp)
      show dictInsertAll (dictInsert d k v) rest = d ++ (k, v) :: rest
      rw [dictInsert_fresh d k v hfresh]
      rw [ih (d ++ [(k, v)]) hnd.2 ?_]
      · simp
      · intro k' hk'
        simp only [List.map_append, List.mem_append] at *
        push_neg
        refine ⟨fun hk'd => hdisj k' (by simp [hk']) hk'd, ?_⟩
        intro hkk
        simp at hkk
        rw [hkk] at hk'
        exact hnd.1 hk'

/-- With pairwise-distinct leaf symbols the code table is literally the
pre-order path list. -/
lemma build_codes_eq_pathList (root : HuffmanNode) (hwf : WFTree root)
    (hnd : ((entriesH root).map Prod.fst).Nodup) :
    build_codes root = pathList root [] := by
  unfold build_codes
  rw [buildCodesHelper_eq root hwf]
  have hkeys := pathList_keys root hwf []
  have := dictInsertAll_fresh (pathList root []) []
    (by rw [hkeys]; exact hnd) (by simp)
  simpa [dictInsertAll] using this

/-- Root-to-leaf paths of the trees the program builds: `false` descends
left, `true` descends right. -/
inductive PathOf : HuffmanNode → List Bool → Char → Prop where
  | stop (c : Char) (f : Nat) : PathOf (.mk (some c) f none none) [] c
  | left {l : HuffmanNode} {p : List Bool} {c : Char} (f : Nat)
      (r : HuffmanNode) (h : PathOf l p c) :
      PathOf (.mk none f (some l) (some r)) (false :: p) c
  | right {r : HuffmanNode} {p : List Bool} {c : Char} (f : Nat)
      (l : HuffmanNode) (h : PathOf r p c) :
      PathOf (.mk none f (some l) (some r)) (true :: p) c

lemma pathOf_cons_char (t : HuffmanNode) (b : Bool) (p : List Bool) (c : Char)
    (h : PathOf t (b :: p) c) : t.char = none := by
  cases h <;> rfl

lemma pathOf_ne_nil (t : HuffmanNode) (p : List Bool) (c : Char)
    (h : PathOf t p c) (ht : t.char = none) : p ≠ [] := by
  cases h with
  | stop c f => simp [HuffmanNode.char] at ht
  | left f r h => simp
  | right f l h => simp

lemma pathList_mem_pathOf (t : HuffmanNode) (hwf : WFTree t) :
    ∀ cur c p, (c, p) ∈ pathList t cur →
      ∃ q, p = cur ++ q ∧ PathOf t q c := by
  induction hwf with
  | leaf c f =>
      intro cur c' p h
      simp [pathList] at h
      exact ⟨[], by simp [h.2], by rw [h.1]; exact PathOf.stop c f⟩
  | node l r hl hr ihl ihr =>
      intro cur c' p h
      rw [show pathList (.mk none (l.freq + r.freq) (some l) (some r)) cur
          = pathList l (cur ++ [false]) ++ pathList r (cur ++ [true]) from by
        simp [pathList]] at h
      rcases List.mem_append.mp h with h | h
      · obtain ⟨q, hq, hpath⟩ := ihl _ _ _ h
        exact ⟨false :: q, by simp [hq], PathOf.left _ _ hpath⟩
      · obtain ⟨q, hq, hpath⟩ := ihr _ _ _ h
        exact ⟨true :: q, by simp [hq], PathOf.right _ _ hpath⟩

lemma pathList_exists (t : HuffmanNode) (hwf : WFTree t) :
    ∀ c, c ∈ (entriesH t).map Prod.fst →
    ∀ cur, ∃ p, (c, cur ++ p) ∈ pathList t cur := by
  induction hwf with
  | leaf c0 f =>
      intro c hc cur
      rw [entriesH_leaf] at hc
      simp at hc
      exact ⟨[], by simp [pathList, hc]⟩
  | node l r hl hr ihl ihr =>
      intro c hc cur
      rw [entriesH_node] at hc
      rw [show pathList (.mk none (l.freq + r.freq) (some l) (some r)) cur
          = pathList l (cur ++ [false]) ++ pathList r (cur ++ [true]) from by
        simp [pathList]]
      simp only [List.map_append, List.mem_append] at hc
      rcases hc with hc | hc
      · obtain ⟨p, hp⟩ := ihl _ hc (cur ++ [false])
        exact ⟨false :: p, List.mem_append.mpr (Or.inl (by simpa using hp))⟩
      · obtain ⟨p, hp⟩ := ihr _ hc (cur ++ [true])
        exact ⟨true :: p, List.mem_append.mpr (Or.inr (by simpa using hp))⟩

lemma dictLookup_mem (d : List (Char × List Bool)) (k : Char) (v : List Bool)
    (h : dictLookup d k = some v) : (k, v) ∈ d := by
  induction d with
  | nil => simp [dictLookup] at h
  | cons e rest ih =>
      obtain ⟨k', v'⟩ := e
      rw [dictLookup] at h
      by_cases hk : k' = k
      · rw [if_pos hk] at h
        cases h
        simp [hk]
      · rw [if_neg hk] at h
        exact List.mem_cons_of_mem _ (ih h)

lemma dictLookup_of_mem (d : List (Char × List Bool))
    (hnd : (d.map Prod.fst).Nodup) (k : Char) (v : List Bool)
    (h : (k, v) ∈ d) : dictLookup d k = some v := by
  induction d with
  | nil => simp at h
  | cons e rest ih =>
      obtain ⟨k', v'⟩ := e
      simp only [List.map_cons, List.nodup_cons] at hnd
      rcases List.mem_cons.mp h with h | h
      · cases h
        simp [dictLookup]
      · rw [dictLookup, if_neg ?_]
        · exact ih hnd.2 h
        · intro hkk
          apply hnd.1
          rw [hkk]
          exact List.mem_map.mpr ⟨(k, v), h, rfl⟩

/-! ## Prefix-freedom of the generated code table -/

/-- `ExtOf p q`: the bit string `q` extends `p`, i.e. `p` is an initial
segment of `q` (`p` itself included). -/
def ExtOf (p q : List Bool) : Prop := ∃ s, q = p ++ s

lemma extOf_trans (p q r : List Bool) (h1 : ExtOf p q) (h2 : ExtOf q r) :
    ExtOf p r := by
  obtain ⟨s1, h1⟩ := h1
  obtain ⟨s2, h2⟩ := h2
  exact ⟨s1 ++ s2, by rw [h2, h1, List.append_assoc]⟩

/-- Bit strings descending through opposite branches of a common stem are
mutually non-extending. -/
lemma not_extOf_branch (a x y : List Bool) (hx : ExtOf (a ++ [false]) x)
    (hy : ExtOf (a ++ [true]) y) : ¬ ExtOf x y ∧ ¬ ExtOf y x := by
  obtain ⟨sx, hx⟩ := hx
  obtain ⟨sy, hy⟩ := hy
  constructor
  · rintro ⟨s, hs⟩
    rw [hx, hy] at hs
    simp only [List.append_assoc] at hs
    have := List.append_cancel_left hs
    simp at this
  · rintro ⟨s, hs⟩
    rw [hx, hy] at hs
    simp only [List.append_assoc] at hs
    have := List.append_cancel_left hs
    simp at this

lemma pathList_extends (t : HuffmanNode) (hwf : WFTree t) (cur : List Bool)
    (c : Char) (p : List Bool) (h : (c, p) ∈ pathList t cur) : ExtOf cur p := by
  obtain ⟨q, hq, _⟩ := pathList_mem_pathOf t hwf cur c p h
  exact ⟨q, hq⟩

/-- No leaf path extends another (within one `pathList`). -/
lemma pathList_pairwise (t : HuffmanNode) (hwf : WFTree t) : ∀ cur,
    (pathList t cur).Pairwise
      (fun e1 e2 => ¬ ExtOf e1.2 e2.2 ∧ ¬ ExtOf e2.2 e1.2) := by
  induction hwf with
  | leaf c f => intro cur; simp [pathList]
  | node l r hl hr ihl ihr =>
      intro cur
      rw [show pathList (.mk none (l.freq + r.freq) (some l) (some r)) cur
          = pathList l (cur ++ [false]) ++ pathList r (cur ++ [true]) from by
        simp [pathList]]
      rw [List.pairwise_append]
      refine ⟨ihl _, ihr _, ?_⟩
      intro e1 h1 e2 h2
      exact not_extOf_branch cur e1.2 e2.2
        (pathList_extends l hl _ e1.1 e1.2 (by simpa using h1))
        (pathList_extends r hr _ e2.1 e2.2 (by simpa using h2))

/-! ## The decoding walk -/

lemma wf_of_char_none (t : HuffmanNode) (hwf : WFTree t)
    (h : t.char = none) : ∃ l r, t = .mk none (l.freq + r.freq)
      (some l) (some r) ∧ WFTree l ∧ WFTree r := by
  cases hwf with
  | leaf c f => simp [HuffmanNode.char] at h
  | node l r hl hr => exact ⟨l, r, rfl, hl, hr⟩

lemma wf_internal_of_two (t : HuffmanNode) (hwf : WFTree t)
    (h : 2 ≤ (entriesH t).length) : t.char = none := by
  cases hwf with
  | leaf c f => rw [entriesH_leaf] at h; simp at h
  | node l r hl hr => rfl

/-- Walking the bits of the path of a leaf emits that leaf's symbol and
resets the walk to the root. -/
lemma decodeWalk_code (root t : HuffmanNode) (p : List Bool) (c : Char)
    (h : PathOf t p c) : p ≠ [] → ∀ acc rest,
    decodeWalk root t acc (p ++ rest) = decodeWalk root root (acc ++ [c]) rest := by
  induction h with
  | stop c f => intro hne; exact absurd rfl hne
  | @left l p' c f r h ih =>
      intro _ acc rest
      rcases p' with _ | ⟨b, p''⟩
      · cases h
        simp [decodeWalk, HuffmanNode.left, HuffmanNode.char]
      · have hchar : l.char = none := pathOf_cons_char _ _ _ _ h
        have step : decodeWalk root (HuffmanNode.mk none f (some l) (some r)) acc
            ((false :: (b :: p'')) ++ rest) = decodeWalk root l acc ((b :: p'') ++ rest) := by
          simp [decodeWalk, HuffmanNode.left, hchar]
        rw [step]
        exact ih (by simp) acc rest
  | @right r p' c f l h ih =>
      intro _ acc rest
      rcases p' with _ | ⟨b, p''⟩
      · cases h
        simp [decodeWalk, HuffmanNode.right, HuffmanNode.char]
      · have hchar : r.char = none := pathOf_cons_char _ _ _ _ h
        have step : decodeWalk root (HuffmanNode.mk none f (some l) (some r)) acc
            ((true :: (b :: p'')) ++ rest) = decodeWalk root r acc ((b :: p'') ++ rest) := by
          simp [decodeWalk, HuffmanNode.right, hchar]
        rw [step]
        exact ih (by simp) acc rest

/-- From an internal root of a well-formed tree the walk never dereferences
a missing child: it always returns a (possibly truncated) symbol list. -/
lemma decodeWalk_total (root : HuffmanNode) (hwfr : WFTree root)
    (hr : root.char = none) : ∀ (bits : List Bool) (t : HuffmanNode)
    (acc : List Char), WFTree t → t.char = none →
    ∃ out, decodeWalk root t acc bits = some out := by
  intro bits
  induction bits with
  | nil => intro t acc _ _; exact ⟨acc, rfl⟩
  | cons b rest ih =>
      intro t acc hwf hchar
      obtain ⟨l, r, ht, hl, hr'⟩ := wf_of_char_none t hwf hchar
      subst ht
      cases b with
      | false =>
          cases hl with
          | leaf c f =>
              have : decodeWalk root (HuffmanNode.mk none
                  ((HuffmanNode.mk (some c) f none none).freq + r.freq)
                  (some (.mk (some c) f none none)) (some r)) acc (false :: rest)
                  = decodeWalk root root (acc ++ [c]) rest := by
                simp [decodeWalk, HuffmanNode.left, HuffmanNode.char]
              rw [this]
              exact ih root (acc ++ [c]) hwfr hr
          | node l1 r1 hl1 hr1 =>
              have : decodeWalk root (HuffmanNode.mk none
                  ((HuffmanNode.mk none (l1.freq + r1.freq) (some l1) (some r1)).freq + r.freq)
                  (some (.mk none (l1.freq + r1.freq) (some l1) (some r1))) (some r))
                  acc (false :: rest)
                  = decodeWalk root (.mk none (l1.freq + r1.freq) (some l1) (some r1)) acc rest := by
                simp [decodeWalk, HuffmanNode.left, HuffmanNode.char]
              rw [this]
              exact ih _ acc (WFTree.node l1 r1 hl1 hr1) rfl
      | true =>
          cases hr' with
          | leaf c f =>
              have : decodeWalk root (HuffmanNode.mk none
                  (l.freq + (HuffmanNode.mk (some c) f none none).freq)
                  (some l) (some (.mk (some c) f none none))) acc (true :: rest)
                  = decodeWalk root root (acc ++ [c]) rest := by
                simp [decodeWalk, HuffmanNode.right, HuffmanNode.char]
              rw [this]
              exact ih root (acc ++ [c]) hwfr hr
          | node l1 r1 hl1 hr1 =>
              have : decodeWalk root (HuffmanNode.mk none
                  (l.freq + (HuffmanNode.mk none (l1.freq + r1.freq) (some l1) (some r1)).freq)
                  (some l) (some (.mk none (l1.freq + r1.freq) (some l1) (some r1))))
                  acc (true :: rest)
                  = decodeWalk root (.mk none (l1.freq + r1.freq) (some l1) (some r1)) acc rest := by
                simp [decodeWalk, HuffmanNode.right, HuffmanNode.char]
              rw [this]
              exact ih _ acc (WFTree.node l1 r1 hl1 hr1) rfl

/-- The walk along `p` from `t` stays strictly inside the tree: every node
it steps to exists and carries no symbol, so the stream stops mid-tree
without completing a codeword. -/
def MidWalk : HuffmanNode → List Bool → Prop
  | _, [] => True
  | t, b :: p =>
      match (if b = false then t.left else t.right) with
      | none => False
      | some next => next.char = none ∧ MidWalk next p

/-- A mid-tree walk emits no symbol: the accumulated output is returned
unchanged, the trailing bits silently discarded. -/
lemma decodeWalk_mid (root : HuffmanNode) : ∀ (p : List Bool)
    (t : HuffmanNode) (acc : List Char), MidWalk t p →
    decodeWalk root t acc p = some acc := by
  intro p
  induction p with
  | nil => intro t acc _; rfl
  | cons b rest ih =>
      intro t acc hmid
      rw [MidWalk] at hmid
      cases hch : (if b = false then t.left else t.right) with
      | none => rw [hch] at hmid; exact hmid.elim
      | some next =>
          rw [hch] at hmid
          obtain ⟨hchar, hmid'⟩ := hmid
          have step : decodeWalk root t acc (b :: rest)
              = match (if b = false then t.left else t.right) with
                | none => none
                | some next =>
                    match next.char with
                    | some ch => decodeWalk root root (acc ++ [ch]) rest
                    | none => decodeWalk root next acc rest := rfl
          rw [step, hch]
          show (match next.char with
            | some ch => decodeWalk root root (acc ++ [ch]) rest
            | none => decodeWalk root next acc rest) = some acc
          rw [hchar]
          exact ih next acc hmid'

/-- A successful `"".join` means every symbol's lookup succeeded. -/
lemma joinedCodes_lookup (data : List Char) (codes : List (Char × List Bool)) :
    ∀ bits, joinedCodes data codes = some bits →
    ∀ c ∈ data, ∃ p, dictLookup codes c = some p := by
  induction data with
  | nil => intro bits _ c hc; simp at hc
  | cons c0 rest ih =>
      intro bits h c hc
      rw [joinedCodes] at h
      cases hlook : dictLookup codes c0 with
      | none => rw [hlook] at h; exact absurd h (by simp)
      | some p =>
          rw [hlook] at h
          cases htail : joinedCodes rest codes with
          | none => rw [htail] at h; exact absurd h (by simp)
          | some tail =>
              rcases List.mem_cons.mp hc with rfl | hc'
              · exact ⟨p, hlook⟩
              · exact ih tail htail c hc'

/-- Decoding the concatenated codes of the input symbols followed by any
remainder consumes exactly those codewords and continues on the remainder
with the symbols emitted. -/
lemma decodeWalk_joined_append (root : HuffmanNode) (hwf : WFTree root)
    (hroot : root.char = none)
    (hnd : ((entriesH root).map Prod.fst).Nodup) :
    ∀ (data : List Char) (acc : List Char) (bits extra : List Bool),
    joinedCodes data (build_codes root) = some bits →
    (∀ c ∈ data, c ∈ (entriesH root).map Prod.fst) →
    decodeWalk root root acc (bits ++ extra)
      = decodeWalk root root (acc ++ data) extra := by
  intro data
  induction data with
  | nil =>
      intro acc bits extra h _
      rw [joinedCodes] at h
      cases h
      simp
  | cons c rest ih =>
      intro acc bits extra h hmem
      rw [joinedCodes] at h
      cases hlook : dictLookup (build_codes root) c with
      | none => rw [hlook] at h; exact absurd h (by simp)
      | some p =>
          rw [hlook] at h
          cases htail : joinedCodes rest (build_codes root) with
          | none => rw [htail] at h; exact absurd h (by simp)
          | some tail =>
              rw [htail] at h
              simp at h
              subst h
              have hmem1 : (c, p) ∈ build_codes root :=
                dictLookup_mem _ _ _ hlook
              rw [build_codes_eq_pathList root hwf hnd] at hmem1
              obtain ⟨q, hq, hpath⟩ :=
                pathList_mem_pathOf root hwf [] c p hmem1
              simp at hq
              subst hq
              have hne := pathOf_ne_nil _ _ _ hpath hroot
              rw [List.append_assoc,
                decodeWalk_code root root p c hpath hne acc (tail ++ extra),
                ih (acc ++ [c]) tail extra htail
                  fun c' hc' => hmem c' (by simp [hc'])]
              simp

/-! ## Bit-string arithmetic -/

lemma natToBits_length (w n : Nat) : (natToBits w n).length = w := by
  induction w generalizing n with
  | zero => rfl
  | succ w ih => simp [natToBits, ih]

lemma bitsToNat_append_bit (s : List Bool) (b : Bool) :
    bitsToNat (s ++ [b]) = 2 * bitsToNat s + (if b then 1 else 0) := by
  unfold bitsToNat
  rw [List.foldl_append]
  rfl

lemma bitsToNat_natToBits (w n : Nat) (h : n < 2 ^ w) :
    bitsToNat (natToBits w n) = n := by
  induction w generalizing n with
  | zero =>
      have : n = 0 := by simpa using h
      simp [this, natToBits, bitsToNat]
  | succ w ih =>
      rw [natToBits, bitsToNat_append_bit]
      have hdiv : n / 2 < 2 ^ w := by
        rw [pow_succ] at h
        omega
      rw [ih _ hdiv]
      rcases Nat.mod_two_eq_zero_or_one n with hm | hm <;>
        simp [hm] <;> omega

lemma bitsToNat_replicate_false (k : Nat) :
    bitsToNat (List.replicate k false) = 0 := by
  induction k with
  | zero => rfl
  | succ k ih =>
      rw [show List.replicate (k + 1) false
          = List.replicate k false ++ [false] from by
        rw [← List.replicate_succ']]
      rw [bitsToNat_append_bit, ih]
      simp

/-! ## The encode/decode round trip -/

lemma joinedCodes_exists (data : List Char) (codes : List (Char × List Bool))
    (h : ∀ c ∈ data, ∃ p, dictLookup codes c = some p) :
    ∃ bits, joinedCodes data codes = some bits := by
  induction data with
  | nil => exact ⟨[], rfl⟩
  | cons c rest ih =>
      obtain ⟨p, hp⟩ := h c (by simp)
      obtain ⟨bits, hbits⟩ := ih fun c' hc' => h c' (by simp [hc'])
      exact ⟨p ++ bits, by rw [joinedCodes, hp, hbits]; rfl⟩

/-- Decoding the concatenated codes of the input symbols recovers them. -/
lemma decodeWalk_joined (root : HuffmanNode) (hwf : WFTree root)
    (hroot : root.char = none) (hnd : ((entriesH root).map Prod.fst).Nodup) :
    ∀ (data : List Char) (acc : List Char) (bits : List Bool),
    joinedCodes data (build_codes root) = some bits →
    (∀ c ∈ data, c ∈ (entriesH root).map Prod.fst) →
    decodeWalk root root acc bits = some (acc ++ data) := by
  intro data
  induction data with
  | nil =>
      intro acc bits h _
      rw [joinedCodes] at h
      cases h
      simp [decodeWalk]
  | cons c rest ih =>
      intro acc bits h hmem
      rw [joinedCodes] at h
      cases hlook : dictLookup (build_codes root) c with
      | none => rw [hlook] at h; exact absurd h (by simp)
      | some p =>
          rw [hlook] at h
          cases htail : joinedCodes rest (build_codes root) with
          | none => rw [htail] at h; exact absurd h (by simp)
          | some tail =>
              rw [htail] at h
              simp at h
              subst h
              have hmem1 : (c, p) ∈ build_codes root := dictLookup_mem _ _ _ hlook
              rw [build_codes_eq_pathList root hwf hnd] at hmem1
              obtain ⟨q, hq, hpath⟩ := pathList_mem_pathOf root hwf [] c p hmem1
              simp at hq
              subst hq
              have hne := pathOf_ne_nil _ _ _ hpath hroot
              rw [decodeWalk_code root root p c hpath hne acc tail]
              rw [ih (acc ++ [c]) tail htail fun c' hc' => hmem c' (by simp [hc'])]
              simp

/-- `decode_data` on a non-empty stream, written out. -/
lemma decode_data_ne_nil (s : List Bool) (hs : s ≠ []) (root : HuffmanNode) :
    decode_data s root = decodeWalk root root []
      (if bitsToNat (s.take 8) = 0 then []
       else (s.take (s.length - bitsToNat (s.take 8))).drop 8) := by
  rcases s with _ | ⟨b, rest⟩
  · exact absurd rfl hs
  · rfl

/-- The heart of the round trip: a well-formed tree with an internal root,
pairwise-distinct leaf symbols and full coverage of the input encodes and
then decodes to the original input. -/
lemma encode_decode_aux (data : List Char) (root : HuffmanNode)
    (hwf : WFTree root) (hroot : root.char = none)
    (hnd : ((entriesH root).map Prod.fst).Nodup)
    (hcov : ∀ c ∈ data, c ∈ (entriesH root).map Prod.fst) :
    ∃ enc, encode_data data (build_codes root) = some enc ∧
      decode_data enc root = some data := by
  have hlookup : ∀ c ∈ data, ∃ p, dictLookup (build_codes root) c = some p := by
    intro c hc
    obtain ⟨p, hp⟩ := pathList_exists root hwf c (hcov c hc) []
    refine ⟨p, ?_⟩
    rw [build_codes_eq_pathList root hwf hnd]
    apply dictLookup_of_mem
    · rw [pathList_keys root hwf]
      exact hnd
    · simpa using hp
  obtain ⟨bits, hbits⟩ := joinedCodes_exists data _ hlookup
  have hmod : bits.length % 8 < 8 := Nat.mod_lt _ (by omega)
  have hpad1 : 1 ≤ 8 - bits.length % 8 := by omega
  have hpad8 : 8 - bits.length % 8 ≤ 8 := by omega
  have henc : encode_data data (build_codes root)
      = some (natToBits 8 (8 - bits.length % 8) ++ bits
          ++ List.replicate (8 - bits.length % 8) false) := by
    unfold encode_data
    rw [hbits]
    rfl
  refine ⟨_, henc, ?_⟩
  have hlen8 : (natToBits 8 (8 - bits.length % 8)).length = 8 :=
    natToBits_length 8 _
  have hne : natToBits 8 (8 - bits.length % 8) ++ bits
      ++ List.replicate (8 - bits.length % 8) false ≠ [] := by
    intro h
    have := congrArg List.length h
    simp [hlen8] at this
  rw [decode_data_ne_nil _ hne root]
  have htake : (natToBits 8 (8 - bits.length % 8) ++ bits
      ++ List.replicate (8 - bits.length % 8) false).take 8
      = natToBits 8 (8 - bits.length % 8) := by
    rw [List.append_assoc]
    rw [← hlen8]
    exact List.take_left _ _
  have hval : bitsToNat ((natToBits 8 (8 - bits.length % 8) ++ bits
      ++ List.replicate (8 - bits.length % 8) false).take 8)
      = 8 - bits.length % 8 := by
    rw [htake]
    exact bitsToNat_natToBits 8 _ (by omega)
  rw [hval, if_neg (by omega)]
  have hlen : (natToBits 8 (8 - bits.length % 8) ++ bits
      ++ List.replicate (8 - bits.length % 8) false).length
      = 8 + bits.length + (8 - bits.length % 8) := by
    simp [hlen8]
    omega
  have hslice : ((natToBits 8 (8 - bits.length % 8) ++ bits
      ++ List.replicate (8 - bits.length % 8) false).take
        ((natToBits 8 (8 - bits.length % 8) ++ bits
          ++ List.replicate (8 - bits.length % 8) false).length
            - (8 - bits.length % 8))).drop 8 = bits := by
    rw [hlen]
    have h1 : 8 + bits.length + (8 - bits.length % 8) - (8 - bits.length % 8)
        = 8 + bits.length := by omega
    have h2 : (natToBits 8 (8 - bits.length % 8) ++ bits).length
        = 8 + bits.length := by simp [hlen8]
    rw [h1, List.take_left' h2]
    exact List.drop_left' hlen8
  rw [hslice]
  exact decodeWalk_joined root hwf hroot hnd data [] bits hbits hcov

/-- Two distinct members force length at least two. -/
lemma two_mem_length {α : Type} (l : List α) (a b : α) (ha : a ∈ l)
    (hb : b ∈ l) (hab : a ≠ b) : 2 ≤ l.length := by
  rcases l with _ | ⟨x, _ | ⟨y, rest⟩⟩
  · simp at ha
  · simp at ha hb
    exact absurd (ha.trans hb.symm) hab
  · simp

lemma build_keys_multiset (frequency : List (Char × Nat)) (root : HuffmanNode)
    (h : build_huffman_tree frequency = some root) :
    ((entriesH root).map Prod.fst : Multiset Char)
      = (frequency.map Prod.fst : Multiset Char) := by
  have hent := build_huffman_tree_entries _ _ h
  have := congrArg (Multiset.map Prod.fst) hent
  simpa using this

lemma build_entries_length (frequency : List (Char × Nat)) (root : HuffmanNode)
    (h : build_huffman_tree frequency = some root) :
    (entriesH root).length = frequency.length := by
  have hent := build_huffman_tree_entries _ _ h
  have := congrArg Multiset.card hent
  simpa using this

lemma build_keys_nodup (frequency : List (Char × Nat)) (root : HuffmanNode)
    (h : build_huffman_tree frequency = some root)
    (hnd : (frequency.map Prod.fst).Nodup) :
    ((entriesH root).map Prod.fst).Nodup := by
  rw [← Multiset.coe_nodup, build_keys_multiset _ _ h, Multiset.coe_nodup]
  exact hnd

lemma build_keys_mem (frequency : List (Char × Nat)) (root : HuffmanNode)
    (h : build_huffman_tree frequency = some root) (c : Char) :
    c ∈ (entriesH root).map Prod.fst ↔ c ∈ frequency.map Prod.fst := by
  rw [← Multiset.mem_coe, build_keys_multiset _ _ h, Multiset.mem_coe]

/-! ## The binary-heap invariant of the `heapq` routines

`build_huffman_tree` pops two minimum-frequency nodes per round; proving
that requires the standard array-embedded binary-heap invariant for the
embedded `heapq` code.  `inSub s i` says index `i` lies in the subtree
rooted at index `s` (under the parent map `i ↦ (i-1)/2`), and `heapAt q s`
is the heap order on that subtree. -/

/-- Index `i` belongs to the subtree rooted at index `s`. -/
def inSub (s : Nat) (i : Nat) : Prop :=
  if i = s then True
  else if s < i then inSub s ((i - 1) / 2) else False
termination_by i
decreasing_by omega

lemma inSub_iff (s i : Nat) :
    inSub s i ↔ (i = s ∨ (s < i ∧ inSub s ((i - 1) / 2))) := by
  constructor
  · intro h
    unfold inSub at h
    split at h
    · left; assumption
    · split at h
      · right; exact ⟨by assumption, h⟩
      · exact absurd h (by simp)
  · intro h
    unfold inSub
    rcases h with h | h
    · simp [h]
    · split
      · trivial
      · split
        · exact h.2
        · omega

lemma inSub_self (s : Nat) : inSub s s := by rw [inSub_iff]; left; rfl

lemma inSub_le (s i : Nat) (h : inSub s i) : s ≤ i := by
  rw [inSub_iff] at h
  rcases h with h | h
  · omega
  · omega

lemma inSub_parent (s i : Nat) (h : inSub s i) (hi : s < i) :
    inSub s ((i - 1) / 2) := by
  rw [inSub_iff] at h
  rcases h with h | h
  · omega
  · exact h.2

lemma inSub_child (s i j : Nat) (h : inSub s i)
    (hj : j = 2 * i + 1 ∨ j = 2 * i + 2) : inSub s j := by
  have hij : i < j := by omega
  have hpar : (j - 1) / 2 = i := by omega
  rw [inSub_iff]
  right
  exact ⟨lt_of_le_of_lt (inSub_le s i h) hij, by rw [hpar]; exact h⟩

lemma inSub_zero (i : Nat) : inSub 0 i := by
  induction i using Nat.strong_induction_on with
  | _ i ih =>
      rcases Nat.eq_zero_or_pos i with h | h
      · rw [h]; exact inSub_self 0
      · rw [inSub_iff]
        right
        exact ⟨h, ih ((i - 1) / 2) (by omega)⟩

/-- Two subtrees rooted at incomparable indices are disjoint. -/
lemma inSub_antisymm (s t : Nat) (hs : inSub s t) (ht : inSub t s) :
    s = t := by
  have h1 := inSub_le s t hs
  have h2 := inSub_le t s ht
  omega

lemma inSub_trans (s t i : Nat) (h1 : inSub s t) (h2 : inSub t i) :
    inSub s i := by
  induction i using Nat.strong_induction_on with
  | _ i ih =>
      rw [inSub_iff] at h2
      rcases h2 with h2 | h2
      · rw [h2]; exact h1
      · rw [inSub_iff]
        right
        have hst : s ≤ t := inSub_le s t h1
        exact ⟨by omega, ih ((i - 1) / 2) (by omega) h2.2⟩

/-- Comparable-or-disjoint: two indices both containing `i` in their
subtrees are comparable. -/
lemma inSub_comparable (s t i : Nat) (h1 : inSub s i) (h2 : inSub t i) :
    inSub s t ∨ inSub t s := by
  induction i using Nat.strong_induction_on with
  | _ i ih =>
      rw [inSub_iff] at h1 h2
      rcases h1 with h1 | h1
      · rcases h2 with h2 | h2
        · subst h1; subst h2; left; exact inSub_self _
        · subst h1; right; rw [inSub_iff]; right; exact h2
      · rcases h2 with h2 | h2
        · subst h2; left; rw [inSub_iff]; right; exact h1
        · exact ih ((i - 1) / 2) (by omega) h1.2 h2.2

/-- Heap order on the subtree of indices rooted at `s`. -/
def heapAt (q : List HuffmanNode) (s : Nat) : Prop :=
  ∀ i j : Nat, inSub s i → (j = 2 * i + 1 ∨ j = 2 * i + 2) → j < q.length →
    (q.getD i default).freq ≤ (q.getD j default).freq

/-- The invariant `heapq` maintains on the whole list. -/
def isHeap (q : List HuffmanNode) : Prop := heapAt q 0

lemma heapAt_restrict (q : List HuffmanNode) (s t : Nat) (h : heapAt q s)
    (hst : inSub s t) : heapAt q t :=
  fun i j hi hj hjl => h i j (inSub_trans s t i hst hi) hj hjl

/-- `heapAt` only reads positions inside the subtree. -/
lemma heapAt_of_eq_on (q q' : List HuffmanNode) (s : Nat)
    (hlen : q'.length = q.length)
    (heq : ∀ x, inSub s x → x < q.length →
      q'.getD x default = q.getD x default)
    (h : heapAt q s) : heapAt q' s := by
  intro i j hi hj hjl
  rw [hlen] at hjl
  have hij : i < j := by omega
  have hil : i < q.length := lt_trans hij hjl
  rw [heq i hi hil, heq j (inSub_child s i j hi hj) hjl]
  exact h i j hi hj hjl

lemma isHeap_root_min (q : List HuffmanNode) (h : isHeap q) (k : Nat)
    (hk : k < q.length) :
    (q.getD 0 default).freq ≤ (q.getD k default).freq := by
  induction k using Nat.strong_induction_on with
  | _ k ih =>
      rcases Nat.eq_zero_or_pos k with h0 | h0
      · rw [h0]
      · have hedge : k = 2 * ((k - 1) / 2) + 1 ∨ k = 2 * ((k - 1) / 2) + 2 := by
          omega
        exact le_trans (ih _ (by omega) (by omega))
          (h _ k (inSub_zero _) hedge hk)

lemma isHeap_min_mem (q : List HuffmanNode) (h : isHeap q) (y : HuffmanNode)
    (hy : y ∈ q) : (q.getD 0 default).freq ≤ y.freq := by
  obtain ⟨k, hk, hk2⟩ := List.getElem_of_mem hy
  rw [← hk2, ← getD_lt q default k hk]
  exact isHeap_root_min q h k hk

lemma getD_set_self {α : Type} (l : List α) (d : α) (i : Nat) (v : α)
    (h : i < l.length) : (l.set i v).getD i d = v := by
  induction l generalizing i with
  | nil => simp at h
  | cons x t ih =>
      cases i with
      | zero => rfl
      | succ i => exact ih i (by simpa using h)

lemma getD_set_ne {α : Type} (l : List α) (d : α) (i x : Nat) (v : α)
    (h : x ≠ i) : (l.set i v).getD x d = l.getD x d := by
  induction l generalizing i x with
  | nil => simp
  | cons a t ih =>
      cases i with
      | zero =>
          cases x with
          | zero => exact absurd rfl h
          | succ x => rfl
      | succ i =>
          cases x with
          | zero => rfl
          | succ x => exact ih i x (by omega)

lemma getD_append_left {α : Type} (l1 l2 : List α) (d : α) (k : Nat)
    (h : k < l1.length) : (l1 ++ l2).getD k d = l1.getD k d := by
  induction l1 generalizing k with
  | nil => simp at h
  | cons x t ih =>
      cases k with
      | zero => rfl
      | succ k => exact ih k (by simpa using h)

/-- Exit analysis of the `_siftdown` loop: writing the item at the current
hole yields the heap order on the subtree, provided the hole's parent (when
inside the subtree) is no larger than the item. -/
lemma siftdown_exit (heap : List HuffmanNode) (startpos pos : Nat)
    (item : HuffmanNode) (hpl : pos < heap.length) (hins : inSub startpos pos)
    (h1 : ∀ i j, inSub startpos i → (j = 2 * i + 1 ∨ j = 2 * i + 2) →
      j < heap.length → i ≠ pos → j ≠ pos →
      (heap.getD i default).freq ≤ (heap.getD j default).freq)
    (h2 : ∀ j, (j = 2 * pos + 1 ∨ j = 2 * pos + 2) → j < heap.length →
      item.freq ≤ (heap.getD j default).freq)
    (hpar : startpos < pos →
      (heap.getD ((pos - 1) / 2) default).freq ≤ item.freq) :
    heapAt (heap.set pos item) startpos ∧
    (∀ x, ¬ inSub startpos x →
      (heap.set pos item).getD x default = heap.getD x default) := by
  constructor
  · intro i j hi hj hjl
    rw [List.length_set] at hjl
    have hij : i < j := by omega
    by_cases hip : i = pos
    · rw [hip, getD_set_self heap default pos item hpl,
        getD_set_ne heap default pos j item (by omega)]
      rw [hip] at hj
      exact h2 j hj hjl
    · by_cases hjp : j = pos
      · have hiv : i = (pos - 1) / 2 := by omega
        rw [hjp, getD_set_self heap default pos item hpl,
          getD_set_ne heap default pos i item hip]
        have hsj : startpos < pos := by
          have := inSub_le startpos i hi
          omega
        rw [hiv]
        exact hpar hsj
      · rw [getD_set_ne heap default pos i item hip,
          getD_set_ne heap default pos j item hjp]
        exact h1 i j hi hj hjl hip hjp
  · intro x hx
    have hxp : x ≠ pos := fun h => hx (h ▸ hins)
    exact getD_set_ne heap default pos x item hxp

/-- Correctness of the `_siftdown` loop under the hole invariant: the heap
order is restored on the subtree rooted at `startpos` and positions outside
that subtree are untouched. -/
lemma siftdownLoop_spec (fuel : Nat) :
    ∀ (heap : List HuffmanNode) (startpos pos : Nat) (item : HuffmanNode),
    pos < heap.length → inSub startpos pos → pos - startpos ≤ fuel →
    (∀ i j, inSub startpos i → (j = 2 * i + 1 ∨ j = 2 * i + 2) →
      j < heap.length → i ≠ pos → j ≠ pos →
      (heap.getD i default).freq ≤ (heap.getD j default).freq) →
    (∀ j, (j = 2 * pos + 1 ∨ j = 2 * pos + 2) → j < heap.length →
      item.freq ≤ (heap.getD j default).freq) →
    (startpos < pos →
      ∀ j, (j = 2 * pos + 1 ∨ j = 2 * pos + 2) → j < heap.length →
        (heap.getD ((pos - 1) / 2) default).freq
          ≤ (heap.getD j default).freq) →
    heapAt (siftdownLoop fuel heap startpos pos item) startpos ∧
    (∀ x, ¬ inSub startpos x →
      (siftdownLoop fuel heap startpos pos item).getD x default
        = heap.getD x default) := by
  induction fuel with
  | zero =>
      intro heap startpos pos item hpl hins hfuel h1 h2 h3
      have hps : pos = startpos := by
        have := inSub_le startpos pos hins
        omega
      rw [siftdownLoop]
      exact siftdown_exit heap startpos pos item hpl hins h1 h2
        (fun hc => absurd hps (by omega))
  | succ fuel ih =>
      intro heap startpos pos item hpl hins hfuel h1 h2 h3
      rw [siftdownLoop]
      dsimp only
      split
      · rename_i hsp
        split
        · rename_i hlt
          -- one bubble-up step
          have hpos1 : 1 ≤ pos := by omega
          have hppl : (pos - 1) / 2 < pos := by omega
          have hppl' : (pos - 1) / 2 < heap.length := lt_trans hppl hpl
          have hinp : inSub startpos ((pos - 1) / 2) :=
            inSub_parent startpos pos hins hsp
          have hchild : pos = 2 * ((pos - 1) / 2) + 1 ∨
              pos = 2 * ((pos - 1) / 2) + 2 := by omega
          have hres := ih (heap.set pos (heap.getD ((pos - 1) / 2) default))
            startpos ((pos - 1) / 2) item
            (by rw [List.length_set]; exact hppl')
            hinp (by omega)
            ?_ ?_ ?_
          · refine ⟨hres.1, ?_⟩
            intro x hx
            rw [hres.2 x hx]
            have hxp : x ≠ pos := fun h => hx (h ▸ hins)
            exact getD_set_ne heap default pos x _ hxp
          · -- (1) for the new hole at the parent position
            intro i j hi hj hjl hip hjp
            rw [List.length_set] at hjl
            by_cases hipos : i = pos
            · -- edges out of the old hole now hold via the grandparent bound
              rw [hipos, getD_set_self heap default pos _ hpl]
              have hjpos : j ≠ pos := by omega
              rw [getD_set_ne heap default pos j _ hjpos]
              rw [hipos] at hj
              exact h3 hsp j hj hjl
            · by_cases hjpos : j = pos
              · -- the edge into the old hole has the new hole as source
                have : i = (pos - 1) / 2 := by omega
                exact absurd this hip
              · rw [getD_set_ne heap default pos i _ hipos,
                  getD_set_ne heap default pos j _ hjpos]
                exact h1 i j hi hj hjl hipos hjpos
          · -- (2): the item is below the parent value and its new siblings
            intro j hj hjl
            rw [List.length_set] at hjl
            by_cases hjpos : j = pos
            · rw [hjpos, getD_set_self heap default pos _ hpl]
              exact le_of_lt hlt
            · rw [getD_set_ne heap default pos j _ hjpos]
              have hedge : j = 2 * ((pos - 1) / 2) + 1 ∨
                  j = 2 * ((pos - 1) / 2) + 2 := hj
              have hlt2 : item.freq < (heap.getD ((pos - 1) / 2) default).freq :=
                hlt
              have : (heap.getD ((pos - 1) / 2) default).freq
                  ≤ (heap.getD j default).freq :=
                h1 ((pos - 1) / 2) j hinp hedge hjl (by omega) hjpos
              omega
          · -- (3): the grandparent dominates the new hole's children
            intro hsp' j hj hjl
            rw [List.length_set] at hjl
            have hg : ((pos - 1) / 2 - 1) / 2 ≠ pos := by omega
            have hgl : ((pos - 1) / 2 - 1) / 2 < heap.length := by
              have : ((pos - 1) / 2 - 1) / 2 ≤ (pos - 1) / 2 := by omega
              omega
            have hing : inSub startpos (((pos - 1) / 2 - 1) / 2) :=
              inSub_parent startpos ((pos - 1) / 2) hinp hsp'
            have hedgeg : (pos - 1) / 2 = 2 * (((pos - 1) / 2 - 1) / 2) + 1 ∨
                (pos - 1) / 2 = 2 * (((pos - 1) / 2 - 1) / 2) + 2 := by omega
            have hgp : (heap.getD (((pos - 1) / 2 - 1) / 2) default).freq
                ≤ (heap.getD ((pos - 1) / 2) default).freq :=
              h1 _ _ hing hedgeg hppl' hg (by omega)
            rw [getD_set_ne heap default pos _ _ hg]
            by_cases hjpos : j = pos
            · rw [hjpos, getD_set_self heap default pos _ hpl]
              exact hgp
            · rw [getD_set_ne heap default pos j _ hjpos]
              have hjq : (heap.getD ((pos - 1) / 2) default).freq
                  ≤ (heap.getD j default).freq :=
                h1 ((pos - 1) / 2) j hinp hj hjl (by omega) hjpos
              omega
        · rename_i hge
          exact siftdown_exit heap startpos pos item hpl hins h1 h2
            (fun _ => by omega)
      · rename_i hsp
        have hps : pos = startpos := by
          have := inSub_le startpos pos hins
          omega
        exact siftdown_exit heap startpos pos item hpl hins h1 h2
          (fun hc => absurd hps (by omega))

/-- `heappush` keeps the heap invariant. -/
lemma heappush_isHeap (q : List HuffmanNode) (x : HuffmanNode)
    (h : isHeap q) : isHeap (heappush q x) := by
  unfold heappush siftdown
  have hres := siftdownLoop_spec q.length (q ++ [x]) 0 q.length
    ((q ++ [x]).getD q.length default)
    (by simp) (inSub_zero _) (by omega) ?_ ?_ ?_
  · exact hres.1
  · intro i j hi hj hjl hip hjp
    have hjn : j < q.length := by
      simp at hjl
      omega
    have hin : i < q.length := by omega
    rw [getD_append_left q [x] default i hin,
      getD_append_left q [x] default j hjn]
    exact h i j (inSub_zero i) hj hjn
  · intro j hj hjl
    simp at hjl
    omega
  · intro hlt j hj hjl
    simp at hjl
    omega

/-- Correctness of the `_siftup` walk: starting from the hole at `pos` it
descends along minimal children to a childless position, keeping every
subtree edge not incident to the hole intact and touching nothing outside
the subtree rooted at `s`. -/
lemma siftupLoop_spec (fuel : Nat) :
    ∀ (heap : List HuffmanNode) (s pos : Nat),
    pos < heap.length → inSub s pos → heap.length - pos ≤ fuel →
    (∀ i j, inSub s i → (j = 2 * i + 1 ∨ j = 2 * i + 2) → j < heap.length →
      i ≠ pos → j ≠ pos →
      (heap.getD i default).freq ≤ (heap.getD j default).freq) →
    (s < pos → ∀ j, (j = 2 * pos + 1 ∨ j = 2 * pos + 2) → j < heap.length →
      (heap.getD ((pos - 1) / 2) default).freq
        ≤ (heap.getD j default).freq) →
    inSub s (siftupLoop fuel heap pos heap.length).2 ∧
    (siftupLoop fuel heap pos heap.length).2 < heap.length ∧
    heap.length ≤ 2 * (siftupLoop fuel heap pos heap.length).2 + 1 ∧
    (∀ x, ¬ inSub s x →
      (siftupLoop fuel heap pos heap.length).1.getD x default
        = heap.getD x default) ∧
    (∀ i j, inSub s i → (j = 2 * i + 1 ∨ j = 2 * i + 2) → j < heap.length →
      i ≠ (siftupLoop fuel heap pos heap.length).2 →
      j ≠ (siftupLoop fuel heap pos heap.length).2 →
      ((siftupLoop fuel heap pos heap.length).1.getD i default).freq
        ≤ ((siftupLoop fuel heap pos heap.length).1.getD j default).freq) := by
  induction fuel with
  | zero =>
      intro heap s pos hpl hins hfuel h1 h3
      exact absurd hpl (by omega)
  | succ fuel ih =>
      intro heap s pos hpl hins hfuel h1 h3
      have step : ∀ cp : Nat,
          (cp = 2 * pos + 1 ∨ cp = 2 * pos + 2) → cp < heap.length →
          (∀ j, (j = 2 * pos + 1 ∨ j = 2 * pos + 2) → j < heap.length →
            (heap.getD cp default).freq ≤ (heap.getD j default).freq) →
          inSub s (siftupLoop fuel (heap.set pos (heap.getD cp default))
            cp heap.length).2 ∧
          (siftupLoop fuel (heap.set pos (heap.getD cp default))
            cp heap.length).2 < heap.length ∧
          heap.length ≤ 2 * (siftupLoop fuel (heap.set pos
            (heap.getD cp default)) cp heap.length).2 + 1 ∧
          (∀ x, ¬ inSub s x →
            (siftupLoop fuel (heap.set pos (heap.getD cp default))
              cp heap.length).1.getD x default = heap.getD x default) ∧
          (∀ i j, inSub s i → (j = 2 * i + 1 ∨ j = 2 * i + 2) →
            j < heap.length →
            i ≠ (siftupLoop fuel (heap.set pos (heap.getD cp default))
              cp heap.length).2 →
            j ≠ (siftupLoop fuel (heap.set pos (heap.getD cp default))
              cp heap.length).2 →
            ((siftupLoop fuel (heap.set pos (heap.getD cp default))
              cp heap.length).1.getD i default).freq
              ≤ ((siftupLoop fuel (heap.set pos (heap.getD cp default))
                cp heap.length).1.getD j default).freq) := by
        intro cp hcp1 hcpe hmin
        have hplcp : pos < cp := by omega
        have hlenset : (heap.set pos (heap.getD cp default)).length
            = heap.length := by simp
        have hres := ih (heap.set pos (heap.getD cp default)) s cp
          (by rw [hlenset]; exact hcpe)
          (inSub_child s pos cp hins hcp1)
          (by rw [hlenset]; omega) ?_ ?_
        · rw [hlenset] at hres
          refine ⟨hres.1, hres.2.1, hres.2.2.1, ?_, ?_⟩
          · intro x hx
            rw [hres.2.2.2.1 x hx]
            exact getD_set_ne heap default pos x _
              (fun hxe => hx (hxe ▸ hins))
          · intro i j hi hj hjl hif hjf
            exact hres.2.2.2.2 i j hi hj hjl hif hjf
        · intro i j hi hj hjl hip hjp
          rw [hlenset] at hjl
          by_cases hipos : i = pos
          · rw [hipos, getD_set_self heap default pos _ hpl]
            have hjpos : j ≠ pos := by omega
            rw [getD_set_ne heap default pos j _ hjpos]
            rw [hipos] at hj
            exact hmin j hj hjl
          · by_cases hjpos : j = pos
            · have hiv : i = (pos - 1) / 2 := by omega
              have hsp : s < pos := by
                have := inSub_le s i hi
                omega
              rw [hjpos, getD_set_self heap default pos _ hpl,
                getD_set_ne heap default pos i _ hipos, hiv]
              exact h3 hsp cp hcp1 hcpe
            · rw [getD_set_ne heap default pos i _ hipos,
                getD_set_ne heap default pos j _ hjpos]
              exact h1 i j hi hj hjl hipos hjpos
        · intro hscp d hd hdl
          rw [hlenset] at hdl
          have hpcp : (cp - 1) / 2 = pos := by omega
          have hdpos : d ≠ pos := by omega
          rw [hpcp, getD_set_self heap default pos _ hpl,
            getD_set_ne heap default pos d _ hdpos]
          exact h1 cp d (inSub_child s pos cp hins hcp1) hd hdl
            (by omega) hdpos
      rw [siftupLoop]
      dsimp only
      split
      · rename_i hchild
        split
        · rename_i hcond
          exact step (2 * pos + 1 + 1) (by omega) hcond.1
            (by
              intro j hj hjl
              rcases hj with hj | hj
              · rw [hj]
                have := hcond.2
                omega
              · rw [hj])
        · rename_i hcond
          refine step (2 * pos + 1) (by omega) hchild ?_
          intro j hj hjl
          rcases hj with hj | hj
          · rw [hj]
          · rw [hj]
            rw [not_and_or] at hcond
            rcases hcond with hc | hc
            · rw [hj] at hjl
              exact absurd hjl (by omega)
            · push_neg at hc
              exact le_of_lt hc
      · rename_i hchild
        exact ⟨hins, hpl, by omega, fun x _ => rfl,
          fun i j hi hj hjl hif hjf => h1 i j hi hj hjl hif hjf⟩

/-- Correctness of `_siftup`: given the subtree's non-root edges it makes
the subtree rooted at `s` a heap, touching nothing outside it. -/
lemma siftup_spec (heap : List HuffmanNode) (s : Nat) (hs : s < heap.length)
    (h1 : ∀ i j, inSub s i → (j = 2 * i + 1 ∨ j = 2 * i + 2) →
      j < heap.length → i ≠ s → j ≠ s →
      (heap.getD i default).freq ≤ (heap.getD j default).freq) :
    heapAt (siftup heap s) s ∧
    (∀ x, ¬ inSub s x →
      (siftup heap s).getD x default = heap.getD x default) := by
  have hloop := siftupLoop_spec heap.length heap s s hs (inSub_self s)
    (by omega) h1 (fun hss => absurd hss (lt_irrefl s))
  obtain ⟨hin, hlt, hleaf, huntouched, hexit⟩ := hloop
  unfold siftup
  dsimp only
  have hlen1 : (siftupLoop heap.length heap s heap.length).1.length
      = heap.length := siftupLoop_length _ _ _ _
  have hgetitem : ((siftupLoop heap.length heap s heap.length).1.set
      (siftupLoop heap.length heap s heap.length).2
      (heap.getD s default)).getD
      (siftupLoop heap.length heap s heap.length).2 default
      = heap.getD s default :=
    getD_set_self _ default _ _ (by rw [hlen1]; exact hlt)
  unfold siftdown
  rw [hgetitem]
  have hres := siftdownLoop_spec (siftupLoop heap.length heap s heap.length).2
    ((siftupLoop heap.length heap s heap.length).1.set
      (siftupLoop heap.length heap s heap.length).2 (heap.getD s default))
    s (siftupLoop heap.length heap s heap.length).2 (heap.getD s default)
    (by rw [List.length_set, hlen1]; exact hlt) hin (by omega) ?_ ?_ ?_
  · refine ⟨hres.1, ?_⟩
    intro x hx
    rw [hres.2 x hx]
    rw [getD_set_ne _ default _ x _ (fun hxe => hx (hxe ▸ hin))]
    exact huntouched x hx
  · intro i j hi hj hjl hip hjp
    rw [List.length_set, hlen1] at hjl
    rw [getD_set_ne _ default _ i _ hip, getD_set_ne _ default _ j _ hjp]
    exact hexit i j hi hj hjl hip hjp
  · intro j hj hjl
    rw [List.length_set, hlen1] at hjl
    omega
  · intro hsp j hj hjl
    rw [List.length_set, hlen1] at hjl
    omega

/-- The downward `heapify` sweep leaves every subtree heap-ordered. -/
lemma heapifyLoop_heapAt (k : Nat) :
    ∀ q : List HuffmanNode, k ≤ q.length →
    (∀ s, k ≤ s → heapAt q s) → ∀ s, heapAt (heapifyLoop k q) s := by
  induction k with
  | zero => intro q _ hs s; exact hs s (by omega)
  | succ k ih =>
      intro q hk hs s
      rw [heapifyLoop]
      apply ih (siftup q k) (by rw [siftup_length]; omega)
      intro t ht
      have hkl : k < q.length := by omega
      have hsup := siftup_spec q k hkl ?_
      · by_cases hkt : inSub k t
        · exact heapAt_restrict _ k t hsup.1 hkt
        · have htk : t ≠ k := fun he => hkt (he ▸ inSub_self k)
          apply heapAt_of_eq_on q (siftup q k) t (siftup_length q k) ?_
            (hs t (by omega))
          intro x hx _
          apply hsup.2
          intro hkx
          rcases inSub_comparable k t x hkx hx with hc | hc
          · exact hkt hc
          · have hle := inSub_le t k hc
            exact htk (by omega)
      · intro i j hi hj hjl hik hjk
        have hki : k < i := by
          have := inSub_le k i hi
          omega
        exact hs i (by omega) i j (inSub_self i) hj hjl

/-- `heapify` establishes the heap invariant on the whole list. -/
lemma heapify_isHeap (q : List HuffmanNode) : isHeap (heapify q) := by
  unfold heapify
  apply heapifyLoop_heapAt (q.length / 2) q (by omega) ?_ 0
  intro s hss i j hi hj hjl
  have hsi := inSub_le s i hi
  omega

/-- `heappop` returns a minimum-frequency element and keeps the heap
invariant on the remaining queue. -/
lemma heappop_spec (q : List HuffmanNode) (x : HuffmanNode)
    (rest : List HuffmanNode) (h : isHeap q)
    (hpop : heappop q = some (x, rest)) :
    isHeap rest ∧ ∀ y ∈ q, x.freq ≤ y.freq := by
  induction q using List.reverseRecOn with
  | nil => rw [heappop] at hpop; simp at hpop
  | append_singleton as a _ =>
      rw [heappop, List.getLast?_concat] at hpop
      simp only [List.dropLast_concat] at hpop
      cases as with
      | nil =>
          simp at hpop
          obtain ⟨hx, hrest⟩ := hpop
          subst hx
          subst hrest
          constructor
          · intro i j hi hj hjl
            simp at hjl
          · intro y hy
            simp at hy
            rw [hy]
      | cons hd tl =>
          rw [if_neg (by simp)] at hpop
          simp only [Option.some.injEq, Prod.mk.injEq] at hpop
          obtain ⟨hx, hrest⟩ := hpop
          subst hx
          subst hrest
          constructor
          · have hs := siftup_spec ((hd :: tl).set 0 a) 0 (by simp) ?_
            · exact hs.1
            · intro i j hi hj hjl hip hjp
              rw [List.length_set] at hjl
              rw [getD_set_ne _ default 0 i a hip,
                getD_set_ne _ default 0 j a hjp]
              have hjl2 : j < ((hd :: tl) ++ [a]).length := by
                simp at hjl ⊢
                omega
              have hil : i < (hd :: tl).length := by
                simp at hjl ⊢
                omega
              have hjl3 : j < (hd :: tl).length := by simpa using hjl
              rw [← getD_append_left (hd :: tl) [a] default i hil,
                ← getD_append_left (hd :: tl) [a] default j hjl3]
              exact h i j (inSub_zero i) hj hjl2
          · intro y hy
            have h0 : ((hd :: tl) ++ [a]).getD 0 default
                = (hd :: tl).getD 0 default := rfl
            have hmin := isHeap_min_mem ((hd :: tl) ++ [a]) h y hy
            rw [h0] at hmin
            exact hmin

/-! ## Frequency-preserving tree maps commute with the heap routines

The control flow of the embedded `heapq` code depends only on the cached
`freq` fields, so mapping a frequency-preserving transformation over the
queue commutes with every heap operation and with the build loop.  This is
the device that lets the optimality induction replace a merged subtree by
an equally weighted leaf. -/

section MapCommute

variable (F : HuffmanNode → HuffmanNode)

lemma getD_map_comm (hFd : F default = default)
    (l : List HuffmanNode) (i : Nat) :
    (l.map F).getD i default = F (l.getD i default) := by
  induction l generalizing i with
  | nil => simpa [List.getD] using hFd.symm
  | cons x t ih =>
      cases i with
      | zero => rfl
      | succ i => exact ih i

lemma set_map_comm (l : List HuffmanNode) (i : Nat) (v : HuffmanNode) :
    (l.map F).set i (F v) = (l.set i v).map F := by
  induction l generalizing i with
  | nil => rfl
  | cons x t ih =>
      cases i with
      | zero => rfl
      | succ i =>
          show F x :: (t.map F).set i (F v) = F x :: (t.set i v).map F
          rw [ih i]

lemma siftdownLoop_map_comm (hF1 : ∀ t, (F t).freq = t.freq)
    (hFd : F default = default) (fuel : Nat) :
    ∀ (heap : List HuffmanNode) (s p : Nat) (item : HuffmanNode),
    siftdownLoop fuel (heap.map F) s p (F item)
      = (siftdownLoop fuel heap s p item).map F := by
  induction fuel with
  | zero =>
      intro heap s p item
      rw [siftdownLoop, siftdownLoop, set_map_comm F]
  | succ fuel ih =>
      intro heap s p item
      rw [siftdownLoop, siftdownLoop]
      dsimp only
      rw [getD_map_comm F hFd heap ((p - 1) / 2), hF1, hF1]
      split
      · split
        · rw [set_map_comm F, ih]
        · rw [set_map_comm F]
      · rw [set_map_comm F]

lemma siftdown_map_comm (hF1 : ∀ t, (F t).freq = t.freq)
    (hFd : F default = default) (heap : List HuffmanNode) (s p : Nat) :
    siftdown (heap.map F) s p = (siftdown heap s p).map F := by
  unfold siftdown
  rw [getD_map_comm F hFd heap p, siftdownLoop_map_comm F hF1 hFd]

lemma siftupLoop_map_comm (hF1 : ∀ t, (F t).freq = t.freq)
    (hFd : F default = default) (fuel : Nat) :
    ∀ (heap : List HuffmanNode) (p endpos : Nat),
    (siftupLoop fuel (heap.map F) p endpos).1
      = (siftupLoop fuel heap p endpos).1.map F ∧
    (siftupLoop fuel (heap.map F) p endpos).2
      = (siftupLoop fuel heap p endpos).2 := by
  induction fuel with
  | zero => intro heap p endpos; exact ⟨rfl, rfl⟩
  | succ fuel ih =>
      intro heap p endpos
      rw [siftupLoop, siftupLoop]
      dsimp only
      rw [getD_map_comm F hFd heap (2 * p + 1),
        getD_map_comm F hFd heap (2 * p + 1 + 1), hF1, hF1]
      split
      · split
        · rw [getD_map_comm F hFd heap (2 * p + 1 + 1), set_map_comm F]
          exact ih _ _ _
        · rw [getD_map_comm F hFd heap (2 * p + 1), set_map_comm F]
          exact ih _ _ _
      · exact ⟨rfl, rfl⟩

lemma siftup_map_comm (hF1 : ∀ t, (F t).freq = t.freq)
    (hFd : F default = default) (heap : List HuffmanNode) (p : Nat) :
    siftup (heap.map F) p = (siftup heap p).map F := by
  unfold siftup
  dsimp only
  rw [List.length_map]
  obtain ⟨h1, h2⟩ := siftupLoop_map_comm F hF1 hFd heap.length heap p heap.length
  rw [h1, h2, getD_map_comm F hFd heap p, set_map_comm F,
    siftdown_map_comm F hF1 hFd]

lemma heapifyLoop_map_comm (hF1 : ∀ t, (F t).freq = t.freq)
    (hFd : F default = default) (k : Nat) :
    ∀ heap : List HuffmanNode,
    heapifyLoop k (heap.map F) = (heapifyLoop k heap).map F := by
  induction k with
  | zero => intro heap; rfl
  | succ k ih =>
      intro heap
      rw [heapifyLoop, heapifyLoop, siftup_map_comm F hF1 hFd, ih]

lemma heapify_map_comm (hF1 : ∀ t, (F t).freq = t.freq)
    (hFd : F default = default) (heap : List HuffmanNode) :
    heapify (heap.map F) = (heapify heap).map F := by
  unfold heapify
  rw [List.length_map, heapifyLoop_map_comm F hF1 hFd]

lemma heappush_map_comm (hF1 : ∀ t, (F t).freq = t.freq)
    (hFd : F default = default) (heap : List HuffmanNode) (x : HuffmanNode) :
    heappush (heap.map F) (F x) = (heappush heap x).map F := by
  unfold heappush
  rw [List.length_map, show heap.map F ++ [F x] = (heap ++ [x]).map F from by
    simp, siftdown_map_comm F hF1 hFd]

lemma heappop_map_comm (hF1 : ∀ t, (F t).freq = t.freq)
    (hFd : F default = default) (heap : List HuffmanNode) :
    heappop (heap.map F)
      = (heappop heap).map fun pr => (F pr.1, pr.2.map F) := by
  unfold heappop
  rw [List.getLast?_map, ← List.map_dropLast]
  cases hl : heap.getLast? with
  | none => rfl
  | some lastelt =>
      dsimp only [Option.map]
      have hemp : (heap.dropLast.map F).isEmpty = heap.dropLast.isEmpty := by
        cases heap.dropLast <;> rfl
      rw [hemp]
      by_cases he : heap.dropLast.isEmpty
      · rw [if_pos he, if_pos he]
      · rw [if_neg he, if_neg he]
        rw [getD_map_comm F hFd heap.dropLast 0, set_map_comm F,
          siftup_map_comm F hF1 hFd]

end MapCommute

lemma buildLoop_map_comm (F : HuffmanNode → HuffmanNode)
    (hF1 : ∀ t, (F t).freq = t.freq) (hFd : F default = default)
    (hF2 : ∀ f l r, F (.mk none f (some l) (some r))
      = .mk none f (some (F l)) (some (F r))) (fuel : Nat) :
    ∀ q : List HuffmanNode,
    buildLoop fuel (q.map F) = (buildLoop fuel q).map F := by
  induction fuel with
  | zero => intro q; rfl
  | succ fuel ih =>
      intro q
      rw [buildLoop, buildLoop, List.length_map]
      split
      · rw [heappop_map_comm F hF1 hFd]
        cases hp : heappop q with
        | none => rfl
        | some pr =>
            obtain ⟨left, q1⟩ := pr
            dsimp only [Option.map]
            rw [heappop_map_comm F hF1 hFd]
            cases hp1 : heappop q1 with
            | none => rfl
            | some pr1 =>
                obtain ⟨right, q2⟩ := pr1
                dsimp only [Option.map]
                rw [← ih]
                rw [hF1, hF1]
                rw [show HuffmanNode.mk none (left.freq + right.freq)
                    (some (F left)) (some (F right))
                    = F (.mk none (left.freq + right.freq)
                      (some left) (some right)) from
                  (hF2 (left.freq + right.freq) left right).symm]
                rw [heappush_map_comm F hF1 hFd q2 _]
      · rfl

/-! ## Weighted path length and leaf substitution -/

/-- The weighted path length: the sum, over the symbol-bearing nodes, of
node depth times stored frequency.  On the well-formed trees the program
builds this is Σ depth(leaf) · freq(leaf) of the claim. -/
def wplAux : HuffmanNode → Nat → Nat
  | .mk c f l r, d =>
      (match c with | some _ => d * f | none => 0) +
      (match l with | some t => wplAux t (d + 1) | none => 0) +
      (match r with | some t => wplAux t (d + 1) | none => 0)
termination_by structural t => t

/-- Weighted path length measured from the root. -/
def wplH (t : HuffmanNode) : Nat := wplAux t 0

/-- Replace every leaf bearing symbol `a` with frequency `w` by the tree
`M`, leaving everything else untouched. -/
def substH (a : Char) (w : Nat) (M : HuffmanNode) : HuffmanNode → HuffmanNode
  | .mk (some ch) f none none =>
      if ch = a ∧ f = w then M else .mk (some ch) f none none
  | .mk c f l r =>
      .mk c f (match l with | some t => some (substH a w M t) | none => none)
        (match r with | some t => some (substH a w M t) | none => none)
termination_by structural t => t

lemma substH_freq (a : Char) (w : Nat) (M : HuffmanNode) (hM : M.freq = w)
    (t : HuffmanNode) : (substH a w M t).freq = t.freq := by
  obtain ⟨c, f, l, r⟩ := t
  cases c with
  | none => cases l <;> cases r <;> rfl
  | some ch =>
      cases l with
      | none =>
          cases r with
          | none =>
              show (if ch = a ∧ f = w then M
                else HuffmanNode.mk (some ch) f none none).freq = f
              split
              · rename_i hcond
                rw [hM, hcond.2]
              · rfl
          | some rt => rfl
      | some lt => cases r <;> rfl

lemma substH_default (a : Char) (w : Nat) (M : HuffmanNode) :
    substH a w M default = default := rfl

lemma substH_node (a : Char) (w : Nat) (M : HuffmanNode) (f : Nat)
    (l r : HuffmanNode) :
    substH a w M (.mk none f (some l) (some r))
      = .mk none f (some (substH a w M l)) (some (substH a w M r)) := rfl

lemma substH_fix_leaf (a : Char) (w : Nat) (M : HuffmanNode) (c : Char)
    (f : Nat) (hc : c ≠ a) :
    substH a w M (.mk (some c) f none none) = .mk (some c) f none none := by
  show (if c = a ∧ f = w then M else HuffmanNode.mk (some c) f none none)
    = HuffmanNode.mk (some c) f none none
  rw [if_neg (fun hcond => hc hcond.1)]

/-- Substituting the merged two-leaf package for an equally weighted leaf
raises the weighted path length by exactly the package weight per
substituted leaf. -/
lemma substH_wplAux (a b : Char) (wa wb : Nat) (t : HuffmanNode)
    (hwf : WFTree t) : ∀ d : Nat,
    wplAux (substH a (wa + wb)
      (.mk none (wa + wb) (some (.mk (some a) wa none none))
        (some (.mk (some b) wb none none))) t) d
      = wplAux t d + ((entriesH t).countP
          fun e => e.1 = a ∧ e.2 = wa + wb) * (wa + wb) := by
  induction hwf with
  | leaf c f =>
      intro d
      by_cases hc : c = a ∧ f = wa + wb
      · rw [show substH a (wa + wb)
            (.mk none (wa + wb) (some (.mk (some a) wa none none))
              (some (.mk (some b) wb none none)))
            (.mk (some c) f none none)
            = .mk none (wa + wb) (some (.mk (some a) wa none none))
              (some (.mk (some b) wb none none)) from by
          show (if c = a ∧ f = wa + wb then _ else _) = _
          rw [if_pos hc]]
        rw [entriesH_leaf]
        rw [show ([(c, f)].countP fun e => e.1 = a ∧ e.2 = wa + wb) = 1 from by
          simp [List.countP_cons, hc.1, hc.2]]
        show 0 + (d + 1) * wa + (d + 1) * wb = d * f + 1 * (wa + wb)
        rw [hc.2]
        ring
      · rw [show substH a (wa + wb)
            (.mk none (wa + wb) (some (.mk (some a) wa none none))
              (some (.mk (some b) wb none none)))
            (.mk (some c) f none none) = .mk (some c) f none none from by
          show (if c = a ∧ f = wa + wb then _ else _) = _
          rw [if_neg hc]]
        rw [entriesH_leaf]
        rw [show ([(c, f)].countP fun e => e.1 = a ∧ e.2 = wa + wb) = 0 from by
          simp only [List.countP_cons, List.countP_nil]
          simp [hc]]
        simp
  | node l r hl hr ihl ihr =>
      intro d
      rw [substH_node]
      rw [show wplAux (.mk none (l.freq + r.freq)
          (some (substH a (wa + wb)
            (.mk none (wa + wb) (some (.mk (some a) wa none none))
              (some (.mk (some b) wb none none))) l))
          (some (substH a (wa + wb)
            (.mk none (wa + wb) (some (.mk (some a) wa none none))
              (some (.mk (some b) wb none none))) r))) d
          = wplAux (substH a (wa + wb)
              (.mk none (wa + wb) (some (.mk (some a) wa none none))
                (some (.mk (some b) wb none none))) l) (d + 1)
            + wplAux (substH a (wa + wb)
              (.mk none (wa + wb) (some (.mk (some a) wa none none))
                (some (.mk (some b) wb none none))) r) (d + 1) from by
        show 0 + _ + _ = _
        omega]
      rw [show wplAux (.mk none (l.freq + r.freq) (some l) (some r)) d
          = wplAux l (d + 1) + wplAux r (d + 1) from by
        show 0 + _ + _ = _
        omega]
      rw [entriesH_node, ihl, ihr, List.countP_append]
      ring

/-! ## Candidate binary trees for the optimality claim

The claim quantifies over all binary trees whose leaves carry exactly the
table's symbols and frequencies.  `BTree` is that candidate space, with
subtree access and replacement along root-to-node paths (`false` = left). -/

inductive BTree : Type where
  | leaf : Char → Nat → BTree
  | node : BTree → BTree → BTree

def entriesB : BTree → List (Char × Nat)
  | .leaf c f => [(c, f)]
  | .node l r => entriesB l ++ entriesB r

/-- Weighted path length of a candidate tree, depth-accumulated. -/
def wplB : BTree → Nat → Nat
  | .leaf _ f, d => d * f
  | .node l r, d => wplB l (d + 1) + wplB r (d + 1)

def heightB : BTree → Nat
  | .leaf _ _ => 0
  | .node l r => max (heightB l) (heightB r) + 1

def getSub : BTree → List Bool → Option BTree
  | t, [] => some t
  | .leaf _ _, _ :: _ => none
  | .node l _, false :: p => getSub l p
  | .node _ r, true :: p => getSub r p

def setSub : BTree → List Bool → BTree → BTree
  | _, [], s => s
  | .leaf c f, _ :: _, _ => .leaf c f
  | .node l r, false :: p, s => .node (setSub l p s) r
  | .node l r, true :: p, s => .node l (setSub r p s)

lemma entriesB_ne_nil (t : BTree) : entriesB t ≠ [] := by
  induction t with
  | leaf c f => simp [entriesB]
  | node l r ihl ihr =>
      intro h
      rw [show entriesB (.node l r) = entriesB l ++ entriesB r from rfl] at h
      exact ihl (List.append_eq_nil.mp h).1

lemma getSub_leaf_none (c : Char) (f : Nat) (b : Bool) (p : List Bool) :
    getSub (.leaf c f) (b :: p) = none := by
  cases b <;> rfl

lemma getSub_nil (t : BTree) : getSub t [] = some t := by
  cases t <;> rfl

lemma setSub_nil (t s : BTree) : setSub t [] s = s := by
  cases t <;> rfl

lemma getSub_append (p q : List Bool) : ∀ t : BTree,
    getSub t (p ++ q) = (getSub t p).bind fun s => getSub s q := by
  induction p with
  | nil =>
      intro t
      rw [List.nil_append, getSub_nil]
      rfl
  | cons b p ih =>
      intro t
      cases t with
      | leaf c f => cases b <;> rfl
      | node l r =>
          cases b with
          | false => exact ih l
          | true => exact ih r

lemma getSub_entries_sub (p : List Bool) : ∀ t s : BTree,
    getSub t p = some s → ∀ e ∈ entriesB s, e ∈ entriesB t := by
  induction p with
  | nil =>
      intro t s h e he
      rw [getSub_nil] at h
      injection h with h
      rw [h]
      exact he
  | cons b p ih =>
      intro t s h e he
      cases t with
      | leaf c f => rw [getSub_leaf_none] at h; exact absurd h (by simp)
      | node l r =>
          cases b with
          | false => exact List.mem_append_left _ (ih l s h e he)
          | true => exact List.mem_append_right _ (ih r s h e he)

lemma getSub_leaf_mem (t : BTree) (p : List Bool) (c : Char) (f : Nat)
    (h : getSub t p = some (.leaf c f)) : (c, f) ∈ entriesB t :=
  getSub_entries_sub p t _ h (c, f) (by simp [entriesB])

lemma entriesB_mem_getSub (t : BTree) (c : Char) (f : Nat) :
    (c, f) ∈ entriesB t → ∃ p, getSub t p = some (.leaf c f) := by
  induction t with
  | leaf c' f' =>
      intro h
      have he : (c, f) = (c', f') := by simpa [entriesB] using h
      rw [show c' = c from (Prod.mk.injEq _ _ _ _ ▸ he).1.symm,
        show f' = f from (Prod.mk.injEq _ _ _ _ ▸ he).2.symm]
      exact ⟨[], rfl⟩
  | node l r ihl ihr =>
      intro h
      rcases List.mem_append.mp
        (show (c, f) ∈ entriesB l ++ entriesB r from h) with h' | h'
      · obtain ⟨p, hp⟩ := ihl h'
        exact ⟨false :: p, hp⟩
      · obtain ⟨p, hp⟩ := ihr h'
        exact ⟨true :: p, hp⟩

lemma setSub_wplB (p : List Bool) : ∀ (t s s' : BTree), getSub t p = some s →
    ∀ d, wplB (setSub t p s') d + wplB s (d + p.length)
      = wplB t d + wplB s' (d + p.length) := by
  induction p with
  | nil =>
      intro t s s' h d
      rw [getSub_nil] at h
      injection h with h
      rw [← h, setSub_nil]
      show wplB s' d + wplB t d = wplB t d + wplB s' d
      omega
  | cons b p ih =>
      intro t s s' h d
      cases t with
      | leaf c f => rw [getSub_leaf_none] at h; exact absurd h (by simp)
      | node l r =>
          cases b with
          | false =>
              have e := ih l s s' h (d + 1)
              show wplB (setSub l p s') (d + 1) + wplB r (d + 1)
                  + wplB s (d + (p.length + 1))
                = wplB l (d + 1) + wplB r (d + 1) + wplB s' (d + (p.length + 1))
              have hd : d + (p.length + 1) = (d + 1) + p.length := by omega
              rw [hd]
              omega
          | true =>
              have e := ih r s s' h (d + 1)
              show wplB l (d + 1) + wplB (setSub r p s') (d + 1)
                  + wplB s (d + (p.length + 1))
                = wplB l (d + 1) + wplB r (d + 1) + wplB s' (d + (p.length + 1))
              have hd : d + (p.length + 1) = (d + 1) + p.length := by omega
              rw [hd]
              omega

lemma setSub_entriesB (p : List Bool) : ∀ (t s s' : BTree), getSub t p = some s →
    (entriesB (setSub t p s') : Multiset (Char × Nat)) + ↑(entriesB s)
      = (entriesB t : Multiset (Char × Nat)) + ↑(entriesB s') := by
  induction p with
  | nil =>
      intro t s s' h
      rw [getSub_nil] at h
      injection h with h
      rw [← h, setSub_nil]
      exact add_comm _ _
  | cons b p ih =>
      intro t s s' h
      cases t with
      | leaf c f => rw [getSub_leaf_none] at h; exact absurd h (by simp)
      | node l r =>
          cases b with
          | false =>
              have e := ih l s s' h
              show (↑(entriesB (setSub l p s') ++ entriesB r) : Multiset (Char × Nat))
                  + ↑(entriesB s)
                = (↑(entriesB l ++ entriesB r) : Multiset (Char × Nat)) + ↑(entriesB s')
              rw [← Multiset.coe_add, ← Multiset.coe_add]
              calc (↑(entriesB (setSub l p s')) + ↑(entriesB r) : Multiset (Char × Nat))
                    + ↑(entriesB s)
                  = (↑(entriesB (setSub l p s')) + ↑(entriesB s) : Multiset (Char × Nat))
                    + ↑(entriesB r) := add_right_comm _ _ _
                _ = (↑(entriesB l) + ↑(entriesB s') : Multiset (Char × Nat))
                    + ↑(entriesB r) := by rw [e]
                _ = (↑(entriesB l) + ↑(entriesB r) : Multiset (Char × Nat))
                    + ↑(entriesB s') := add_right_comm _ _ _
          | true =>
              have e := ih r s s' h
              show (↑(entriesB l ++ entriesB (setSub r p s')) : Multiset (Char × Nat))
                  + ↑(entriesB s)
                = (↑(entriesB l ++ entriesB r) : Multiset (Char × Nat)) + ↑(entriesB s')
              rw [← Multiset.coe_add, ← Multiset.coe_add]
              calc (↑(entriesB l) + ↑(entriesB (setSub r p s')) : Multiset (Char × Nat))
                    + ↑(entriesB s)
                  = ↑(entriesB l) + ((↑(entriesB (setSub r p s'))
                      : Multiset (Char × Nat)) + ↑(entriesB s)) := add_assoc _ _ _
                _ = ↑(entriesB l) + ((↑(entriesB r) : Multiset (Char × Nat))
                      + ↑(entriesB s')) := by rw [e]
                _ = (↑(entriesB l) + ↑(entriesB r) : Multiset (Char × Nat))
                    + ↑(entriesB s') := (add_assoc _ _ _).symm

lemma getSub_setSub_self (p : List Bool) : ∀ (t s s' : BTree),
    getSub t p = some s → getSub (setSub t p s') p = some s' := by
  induction p with
  | nil => intro t s s' _; rw [setSub_nil, getSub_nil]
  | cons b p ih =>
      intro t s s' h
      cases t with
      | leaf c f => rw [getSub_leaf_none] at h; exact absurd h (by simp)
      | node l r =>
          cases b with
          | false => exact ih l s s' h
          | true => exact ih r s s' h

lemma extOf_nil_left (q : List Bool) : ExtOf [] q := ⟨q, rfl⟩

lemma extOf_cons_iff (x y : Bool) (p q : List Bool) :
    ExtOf (x :: p) (y :: q) ↔ x = y ∧ ExtOf p q := by
  constructor
  · rintro ⟨s, hs⟩
    injection hs with h1 h2
    exact ⟨h1.symm, s, h2⟩
  · rintro ⟨rfl, s, rfl⟩
    exact ⟨s, rfl⟩

lemma extOf_eq_of_length (p q : List Bool) (h : ExtOf p q)
    (hl : q.length ≤ p.length) : p = q := by
  obtain ⟨s, rfl⟩ := h
  rw [List.length_append] at hl
  rw [List.eq_nil_of_length_eq_zero (show s.length = 0 by omega),
    List.append_nil]

lemma getSub_setSub_indep (p : List Bool) :
    ∀ (q : List Bool), ¬ ExtOf p q → ¬ ExtOf q p →
    ∀ (t s' : BTree), getSub (setSub t p s') q = getSub t q := by
  induction p with
  | nil => intro q hpq _ t s'; exact absurd (extOf_nil_left q) hpq
  | cons a p ih =>
      intro q hpq hqp t s'
      cases q with
      | nil => exact absurd (extOf_nil_left (a :: p)) hqp
      | cons b q =>
          cases t with
          | leaf c f => rfl
          | node l r =>
              by_cases hab : a = b
              · subst hab
                have hpq' : ¬ ExtOf p q :=
                  fun h => hpq ((extOf_cons_iff a a p q).mpr ⟨rfl, h⟩)
                have hqp' : ¬ ExtOf q p :=
                  fun h => hqp ((extOf_cons_iff a a q p).mpr ⟨rfl, h⟩)
                cases a with
                | false => exact ih q hpq' hqp' l s'
                | true => exact ih q hpq' hqp' r s'
              · cases a <;> cases b
                · exact absurd rfl hab
                · rfl
                · rfl
                · exact absurd rfl hab

lemma getSub_length_height (p : List Bool) : ∀ t s : BTree,
    getSub t p = some s → p.length + heightB s ≤ heightB t := by
  induction p with
  | nil =>
      intro t s h
      rw [getSub_nil] at h
      injection h with h
      rw [h, List.length_nil, Nat.zero_add]
  | cons b p ih =>
      intro t s h
      cases t with
      | leaf c f => rw [getSub_leaf_none] at h; exact absurd h (by simp)
      | node l r =>
          show p.length + 1 + heightB s ≤ max (heightB l) (heightB r) + 1
          cases b with
          | false =>
              have h1 := ih l s h
              have h2 := Nat.le_max_left (heightB l) (heightB r)
              omega
          | true =>
              have h1 := ih r s h
              have h2 := Nat.le_max_right (heightB l) (heightB r)
              omega

lemma setSub_height_le (p : List Bool) : ∀ t s s' : BTree,
    getSub t p = some s → heightB s' ≤ heightB s →
    heightB (setSub t p s') ≤ heightB t := by
  induction p with
  | nil =>
      intro t s s' h hss
      rw [getSub_nil] at h
      injection h with h
      rw [setSub_nil, h]
      exact hss
  | cons b p ih =>
      intro t s s' h hss
      cases t with
      | leaf c f => rw [getSub_leaf_none] at h; exact absurd h (by simp)
      | node l r =>
          cases b with
          | false =>
              show max (heightB (setSub l p s')) (heightB r) + 1
                ≤ max (heightB l) (heightB r) + 1
              have h1 := ih l s s' h hss
              exact Nat.add_le_add_right (max_le_max h1 (Nat.le_refl _)) 1
          | true =>
              show max (heightB l) (heightB (setSub r p s')) + 1
                ≤ max (heightB l) (heightB r) + 1
              have h1 := ih r s s' h hss
              exact Nat.add_le_add_right (max_le_max (Nat.le_refl _) h1) 1

/-- Every internal node has, under it, a node whose two children are
leaves sitting at the maximal depth of the whole tree. -/
lemma exists_deepest_pair (n : Nat) : ∀ l r : BTree,
    heightB (.node l r) ≤ n →
    ∃ p x wx y wy, getSub (.node l r) p
        = some (.node (.leaf x wx) (.leaf y wy))
      ∧ p.length + 1 = heightB (.node l r) := by
  induction n with
  | zero =>
      intro l r h
      exact absurd h (by show ¬ (max _ _ + 1 ≤ 0); omega)
  | succ n ih =>
      intro l r h
      by_cases hlr : heightB r ≤ heightB l
      · cases l with
        | leaf x wx =>
            cases r with
            | leaf y wy =>
                exact ⟨[], x, wx, y, wy, rfl, by
                  show 0 + 1 = max (heightB (.leaf x wx)) (heightB (.leaf y wy)) + 1
                  rfl⟩
            | node r1 r2 =>
                exact absurd hlr (by
                  show ¬ (max (heightB r1) (heightB r2) + 1 ≤ 0); omega)
        | node l1 l2 =>
            obtain ⟨p, x, wx, y, wy, hp, hh⟩ := ih l1 l2 (by
              have h1 := Nat.le_max_left (heightB (.node l1 l2)) (heightB r)
              have h2 : max (heightB (.node l1 l2)) (heightB r) + 1 ≤ n + 1 := h
              omega)
            refine ⟨false :: p, x, wx, y, wy, hp, ?_⟩
            show p.length + 1 + 1
              = max (heightB (.node l1 l2)) (heightB r) + 1
            rw [Nat.max_eq_left hlr, hh]
      · cases r with
        | leaf y wy => exact absurd (Nat.zero_le _) hlr
        | node r1 r2 =>
            obtain ⟨p, x, wx, y, wy, hp, hh⟩ := ih r1 r2 (by
              have h1 := Nat.le_max_right (heightB l) (heightB (.node r1 r2))
              have h2 : max (heightB l) (heightB (.node r1 r2)) + 1 ≤ n + 1 := h
              omega)
            refine ⟨true :: p, x, wx, y, wy, hp, ?_⟩
            show p.length + 1 + 1
              = max (heightB l) (heightB (.node r1 r2)) + 1
            rw [Nat.max_eq_right (Nat.le_of_not_le hlr), hh]

/-- Below a leaf there is nothing: a strict extension of a leaf position
is out of the tree. -/
lemma getSub_ext_none (t : BTree) (p q : List Bool) (c : Char) (f : Nat)
    (h : getSub t p = some (.leaf c f)) (hext : ExtOf p q) (hne : q ≠ p) :
    getSub t q = none := by
  obtain ⟨s, rfl⟩ := hext
  cases s with
  | nil => exact absurd (List.append_nil p) hne
  | cons b s' =>
      rw [getSub_append, h]
      show getSub (BTree.leaf c f) (b :: s') = none
      exact getSub_leaf_none c f b s'

/-- Two distinct leaf positions are incomparable. -/
lemma leaf_pos_incomp (t : BTree) (p1 p2 : List Bool) (c1 c2 : Char)
    (f1 f2 : Nat) (h1 : getSub t p1 = some (.leaf c1 f1))
    (h2 : getSub t p2 = some (.leaf c2 f2)) (hne : p1 ≠ p2) :
    ¬ ExtOf p1 p2 ∧ ¬ ExtOf p2 p1 := by
  constructor
  · intro hext
    rw [getSub_ext_none t p1 p2 c1 f1 h1 hext (Ne.symm hne)] at h2
    exact Option.noConfusion h2
  · intro hext
    rw [getSub_ext_none t p2 p1 c2 f2 h2 hext hne] at h1
    exact Option.noConfusion h1

/-- With pairwise distinct symbols on the leaves, distinct leaf positions
carry distinct symbols. -/
lemma getSub_distinct_char (t : BTree)
    (hnd : ((entriesB t).map Prod.fst).Nodup) :
    ∀ (p1 p2 : List Bool) (c1 : Char) (f1 : Nat) (c2 : Char) (f2 : Nat),
    getSub t p1 = some (.leaf c1 f1) → getSub t p2 = some (.leaf c2 f2) →
    p1 ≠ p2 → c1 ≠ c2 := by
  induction t with
  | leaf c f =>
      intro p1 p2 c1 f1 c2 f2 h1 h2 hne
      cases p1 with
      | nil =>
          cases p2 with
          | nil => exact absurd rfl hne
          | cons b p => rw [getSub_leaf_none] at h2; exact absurd h2 (by simp)
      | cons b p => rw [getSub_leaf_none] at h1; exact absurd h1 (by simp)
  | node l r ihl ihr =>
      intro p1 p2 c1 f1 c2 f2 h1 h2 hne
      have hnd' : ((entriesB l).map Prod.fst).Nodup
          ∧ ((entriesB r).map Prod.fst).Nodup
          ∧ ((entriesB l).map Prod.fst).Disjoint ((entriesB r).map Prod.fst) := by
        have : (((entriesB l).map Prod.fst) ++ ((entriesB r).map Prod.fst)).Nodup := by
          rw [← List.map_append]
          exact hnd
        exact List.nodup_append.mp this
      cases p1 with
      | nil => rw [getSub_nil] at h1; simp at h1
      | cons b1 p1 =>
          cases p2 with
          | nil => rw [getSub_nil] at h2; simp at h2
          | cons b2 p2 =>
              cases b1 <;> cases b2
              · exact ihl hnd'.1 p1 p2 c1 f1 c2 f2 h1 h2
                  (fun hh => hne (by rw [hh]))
              · intro hcc
                have m1 : c1 ∈ (entriesB l).map Prod.fst :=
                  List.mem_map_of_mem Prod.fst (getSub_leaf_mem l p1 c1 f1 h1)
                have m2 : c2 ∈ (entriesB r).map Prod.fst :=
                  List.mem_map_of_mem Prod.fst (getSub_leaf_mem r p2 c2 f2 h2)
                rw [← hcc] at m2
                exact hnd'.2.2 m1 m2
              · intro hcc
                have m2 : c2 ∈ (entriesB l).map Prod.fst :=
                  List.mem_map_of_mem Prod.fst (getSub_leaf_mem l p2 c2 f2 h2)
                have m1 : c1 ∈ (entriesB r).map Prod.fst :=
                  List.mem_map_of_mem Prod.fst (getSub_leaf_mem r p1 c1 f1 h1)
                rw [← hcc] at m2
                exact hnd'.2.2 m2 m1
              · exact ihr hnd'.2.1 p1 p2 c1 f1 c2 f2 h1 h2
                  (fun hh => hne (by rw [hh]))

/-- Reading both children determines the node. -/
lemma getSub_children (t : BTree) (p : List Bool) (l' r' : BTree)
    (hl : getSub t (p ++ [false]) = some l')
    (hr : getSub t (p ++ [true]) = some r') :
    getSub t p = some (.node l' r') := by
  rw [getSub_append] at hl hr
  cases hp : getSub t p with
  | none => rw [hp] at hl; exact absurd hl (by simp)
  | some s =>
      rw [hp] at hl hr
      cases s with
      | leaf c f =>
          rw [show (some (BTree.leaf c f)).bind (fun s => getSub s [false])
            = none from rfl] at hl
          exact absurd hl (by simp)
      | node a b =>
          rw [show ((some (BTree.node a b)).bind fun s => getSub s [false])
            = getSub a [] from rfl, getSub_nil] at hl
          rw [show ((some (BTree.node a b)).bind fun s => getSub s [true])
            = getSub b [] from rfl, getSub_nil] at hr
          injection hl with hl
          injection hr with hr
          rw [← hl, ← hr]

lemma sibling_positions_ne (p : List Bool) (d e : Bool) (h : d ≠ e) :
    p ++ [d] ≠ p ++ [e] := by
  intro hh
  have := List.append_cancel_left hh
  injection this with h1
  exact h h1

/-- Swapping the contents of a shallow light leaf and a deeper heavier leaf
never increases the weighted path length, and preserves the entry multiset,
the height bound, and every other leaf. -/
lemma swap_spec (t : BTree) (p1 p2 : List Bool) (c1 c2 : Char) (f1 f2 : Nat)
    (h1 : getSub t p1 = some (.leaf c1 f1))
    (h2 : getSub t p2 = some (.leaf c2 f2))
    (hne : p1 ≠ p2) (hlen : p1.length ≤ p2.length) (hw : f1 ≤ f2) :
    wplB (setSub (setSub t p1 (.leaf c2 f2)) p2 (.leaf c1 f1)) 0 ≤ wplB t 0
    ∧ (entriesB (setSub (setSub t p1 (.leaf c2 f2)) p2 (.leaf c1 f1)) :
        Multiset (Char × Nat)) = ↑(entriesB t)
    ∧ getSub (setSub (setSub t p1 (.leaf c2 f2)) p2 (.leaf c1 f1)) p2
        = some (.leaf c1 f1)
    ∧ getSub (setSub (setSub t p1 (.leaf c2 f2)) p2 (.leaf c1 f1)) p1
        = some (.leaf c2 f2)
    ∧ heightB (setSub (setSub t p1 (.leaf c2 f2)) p2 (.leaf c1 f1)) ≤ heightB t
    ∧ ∀ (q : List Bool) (qc : Char) (qf : Nat),
        getSub t q = some (.leaf qc qf) → q ≠ p1 → q ≠ p2 →
        getSub (setSub (setSub t p1 (.leaf c2 f2)) p2 (.leaf c1 f1)) q
          = some (.leaf qc qf) := by
  obtain ⟨hi12, hi21⟩ := leaf_pos_incomp t p1 p2 c1 c2 f1 f2 h1 h2 hne
  have ht1p2 : getSub (setSub t p1 (.leaf c2 f2)) p2 = some (.leaf c2 f2) := by
    rw [getSub_setSub_indep p1 p2 hi12 hi21 t (.leaf c2 f2)]
    exact h2
  have ht1p1 : getSub (setSub t p1 (.leaf c2 f2)) p1 = some (.leaf c2 f2) :=
    getSub_setSub_self p1 t _ _ h1
  refine ⟨?_, ?_, ?_, ?_, ?_, ?_⟩
  · have e1 := setSub_wplB p1 t (.leaf c1 f1) (.leaf c2 f2) h1 0
    have e2 := setSub_wplB p2 (setSub t p1 (.leaf c2 f2)) (.leaf c2 f2)
      (.leaf c1 f1) ht1p2 0
    have r1 : ∀ (c : Char) (f d : Nat), wplB (.leaf c f) d = d * f :=
      fun _ _ _ => rfl
    rw [r1, r1] at e1
    rw [r1, r1] at e2
    simp only [Nat.zero_add] at e1 e2
    obtain ⟨df, rfl⟩ := Nat.exists_eq_add_of_le hw
    obtain ⟨dp, hdp⟩ := Nat.exists_eq_add_of_le hlen
    rw [hdp] at e2
    ring_nf at e1 e2
    linarith [Nat.zero_le (df * dp)]
  · have e1 := setSub_entriesB p1 t (.leaf c1 f1) (.leaf c2 f2) h1
    have e2 := setSub_entriesB p2 (setSub t p1 (.leaf c2 f2)) (.leaf c2 f2)
      (.leaf c1 f1) ht1p2
    have e3 : (entriesB (setSub (setSub t p1 (.leaf c2 f2)) p2 (.leaf c1 f1)) :
        Multiset (Char × Nat)) + ↑(entriesB (BTree.leaf c2 f2))
        = (entriesB t : Multiset (Char × Nat))
          + ↑(entriesB (BTree.leaf c2 f2)) := by
      rw [show (entriesB (BTree.leaf c2 f2) : List (Char × Nat))
        = [(c2, f2)] from rfl]
      calc (entriesB (setSub (setSub t p1 (.leaf c2 f2)) p2 (.leaf c1 f1)) :
            Multiset (Char × Nat)) + ↑[(c2, f2)]
          = (entriesB (setSub t p1 (.leaf c2 f2)) : Multiset (Char × Nat))
            + ↑[(c1, f1)] := by
            have := e2
            rw [show (entriesB (BTree.leaf c2 f2) : List (Char × Nat))
              = [(c2, f2)] from rfl,
              show (entriesB (BTree.leaf c1 f1) : List (Char × Nat))
              = [(c1, f1)] from rfl] at this
            exact this
        _ = (entriesB t : Multiset (Char × Nat)) + ↑[(c2, f2)] := by
            have := e1
            rw [show (entriesB (BTree.leaf c2 f2) : List (Char × Nat))
              = [(c2, f2)] from rfl,
              show (entriesB (BTree.leaf c1 f1) : List (Char × Nat))
              = [(c1, f1)] from rfl] at this
            exact this
    exact add_right_cancel e3
  · exact getSub_setSub_self p2 _ _ _ ht1p2
  · rw [getSub_setSub_indep p2 p1 hi21 hi12]
    exact ht1p1
  · have hh1 : heightB (setSub t p1 (.leaf c2 f2)) ≤ heightB t :=
      setSub_height_le p1 t _ _ h1 (Nat.le_refl 0)
    have hh2 : heightB (setSub (setSub t p1 (.leaf c2 f2)) p2 (.leaf c1 f1))
        ≤ heightB (setSub t p1 (.leaf c2 f2)) :=
      setSub_height_le p2 _ _ _ ht1p2 (Nat.le_refl 0)
    exact le_trans hh2 hh1
  · intro q qc qf hq hq1 hq2
    obtain ⟨hiq1, hi1q⟩ := leaf_pos_incomp t q p1 qc c1 qf f1 hq h1 hq1
    obtain ⟨hiq2, hi2q⟩ := leaf_pos_incomp t q p2 qc c2 qf f2 hq h2 hq2
    rw [getSub_setSub_indep p2 q hi2q hiq2, getSub_setSub_indep p1 q hi1q hiq1]
    exact hq

/-- Collapsing a node that carries exactly the two leaves `(a, wa)` and
`(b, wb)` into the single leaf `(a, wa + wb)` lowers the weighted path
length by exactly `wa + wb`. -/
lemma collapse_le (t2 : BTree) (p : List Bool) (a b : Char) (wa wb : Nat)
    (s : BTree) (hs : getSub t2 p = some s)
    (hsw : ∀ d, wplB s d = (d + 1) * wa + (d + 1) * wb)
    (hse : (entriesB s : Multiset (Char × Nat)) = ↑[(a, wa), (b, wb)]) :
    wplB (setSub t2 p (.leaf a (wa + wb))) 0 + (wa + wb) = wplB t2 0
    ∧ (entriesB (setSub t2 p (.leaf a (wa + wb))) : Multiset (Char × Nat))
        + ↑[(a, wa), (b, wb)]
      = (entriesB t2 : Multiset (Char × Nat)) + ↑[(a, wa + wb)] := by
  constructor
  · have e := setSub_wplB p t2 s (.leaf a (wa + wb)) hs 0
    rw [hsw (0 + p.length)] at e
    rw [show wplB (BTree.leaf a (wa + wb)) (0 + p.length)
      = (0 + p.length) * (wa + wb) from rfl] at e
    ring_nf at e ⊢
    linarith
  · have e := setSub_entriesB p t2 s (.leaf a (wa + wb)) hs
    rw [hse] at e
    rw [show (entriesB (BTree.leaf a (wa + wb)) : List (Char × Nat))
      = [(a, wa + wb)] from rfl] at e
    exact e

/-- The exchange argument: when `a` and `b` carry the two least weights
among a tree's entries (all symbols pairwise distinct), some tree over the
entry multiset with `(a, wa)` and `(b, wb)` fused into `(a, wa + wb)` costs
at least `wa + wb` less. -/
lemma exchange (t : BTree) (a b : Char) (wa wb : Nat)
    (hab : a ≠ b)
    (hnd : ((entriesB t).map Prod.fst).Nodup)
    (ha : (a, wa) ∈ entriesB t) (hb : (b, wb) ∈ entriesB t)
    (hmina : ∀ e ∈ entriesB t, wa ≤ e.2)
    (hminb : ∀ e ∈ entriesB t, e.1 ≠ a → wb ≤ e.2) :
    ∃ u : BTree, wplB u 0 + (wa + wb) ≤ wplB t 0
      ∧ (entriesB u : Multiset (Char × Nat)) + ↑[(a, wa), (b, wb)]
          = (entriesB t : Multiset (Char × Nat)) + ↑[(a, wa + wb)] := by
  obtain ⟨l0, r0, ht⟩ : ∃ l0 r0, t = BTree.node l0 r0 := by
    cases t with
    | leaf c f =>
        exfalso
        have ha' : (a, wa) = (c, f) := by simpa [entriesB] using ha
        have hb' : (b, wb) = (c, f) := by simpa [entriesB] using hb
        apply hab
        rw [show a = c from congrArg Prod.fst ha',
          show b = c from congrArg Prod.fst hb']
    | node l0 r0 => exact ⟨l0, r0, rfl⟩
  obtain ⟨p, x, wx, y, wy, hp, hh⟩ :
      ∃ p x wx y wy, getSub t p = some (.node (.leaf x wx) (.leaf y wy))
        ∧ p.length + 1 = heightB t := by
    rw [ht]
    exact exists_deepest_pair (heightB (BTree.node l0 r0)) l0 r0 (Nat.le_refl _)
  have hP1 : getSub t (p ++ [false]) = some (.leaf x wx) := by
    rw [getSub_append, hp]
    rfl
  have hP2 : getSub t (p ++ [true]) = some (.leaf y wy) := by
    rw [getSub_append, hp]
    rfl
  have hdepth : ∀ (q : List Bool) (qc : Char) (qf : Nat),
      getSub t q = some (.leaf qc qf) → q.length ≤ p.length + 1 := by
    intro q qc qf hq
    have h3 := getSub_length_height q t _ hq
    rw [show heightB (BTree.leaf qc qf) = 0 from rfl] at h3
    omega
  obtain ⟨pa, hpa⟩ := entriesB_mem_getSub t a wa ha
  have hmx : wa ≤ wx := hmina (x, wx) (getSub_leaf_mem t _ x wx hP1)
  obtain ⟨t1, d1, ha1, hz1, hw1, he1, hht1⟩ :
      ∃ (t1 : BTree) (d1 : Bool),
        getSub t1 (p ++ [d1]) = some (.leaf a wa)
        ∧ (∃ z wz, getSub t1 (p ++ [!d1]) = some (.leaf z wz))
        ∧ wplB t1 0 ≤ wplB t 0
        ∧ (entriesB t1 : Multiset (Char × Nat)) = ↑(entriesB t)
        ∧ heightB t1 ≤ heightB t := by
    by_cases hpa1 : pa = p ++ [false]
    · refine ⟨t, false, ?_, ⟨y, wy, ?_⟩, Nat.le_refl _, rfl, Nat.le_refl _⟩
      · rw [← hpa1]
        exact hpa
      · rw [show (!false) = true from rfl]
        exact hP2
    · by_cases hpa2 : pa = p ++ [true]
      · refine ⟨t, true, ?_, ⟨x, wx, ?_⟩, Nat.le_refl _, rfl, Nat.le_refl _⟩
        · rw [← hpa2]
          exact hpa
        · rw [show (!true) = false from rfl]
          exact hP1
      · have hlen : pa.length ≤ (p ++ [false]).length := by
          have h3 := hdepth pa a wa hpa
          rw [List.length_append]
          simpa using h3
        obtain ⟨hc, hent, hg2, hg1, hhts, hother⟩ :=
          swap_spec t pa (p ++ [false]) a x wa wx hpa hP1 hpa1 hlen hmx
        refine ⟨setSub (setSub t pa (.leaf x wx)) (p ++ [false]) (.leaf a wa),
          false, hg2, ⟨y, wy, ?_⟩, hc, hent, hhts⟩
        rw [show (!false) = true from rfl]
        exact hother (p ++ [true]) y wy hP2 (Ne.symm hpa2)
          (sibling_positions_ne p true false (by simp))
  obtain ⟨z, wz, hz⟩ := hz1
  have hperm : List.Perm (entriesB t1) (entriesB t) := Multiset.coe_eq_coe.mp he1
  have hnd1 : ((entriesB t1).map Prod.fst).Nodup :=
    ((hperm.map Prod.fst).nodup_iff).mpr hnd
  have hza : z ≠ a :=
    getSub_distinct_char t1 hnd1 (p ++ [!d1]) (p ++ [d1]) z wz a wa hz ha1
      (sibling_positions_ne p (!d1) d1 (by cases d1 <;> simp))
  have hzt : (z, wz) ∈ entriesB t :=
    hperm.subset (getSub_leaf_mem t1 _ z wz hz)
  have hbz : wb ≤ wz := hminb (z, wz) hzt hza
  have hb1 : (b, wb) ∈ entriesB t1 := hperm.symm.subset hb
  obtain ⟨pb, hpb⟩ := entriesB_mem_getSub t1 b wb hb1
  have hdepth1 : pb.length ≤ p.length + 1 := by
    have h3 := getSub_length_height pb t1 _ hpb
    rw [show heightB (BTree.leaf b wb) = 0 from rfl] at h3
    omega
  obtain ⟨t2, ha2, hb2, hw2, he2⟩ :
      ∃ t2 : BTree,
        getSub t2 (p ++ [d1]) = some (.leaf a wa)
        ∧ getSub t2 (p ++ [!d1]) = some (.leaf b wb)
        ∧ wplB t2 0 ≤ wplB t 0
        ∧ (entriesB t2 : Multiset (Char × Nat)) = ↑(entriesB t) := by
    by_cases hpbs : pb = p ++ [!d1]
    · refine ⟨t1, ha1, ?_, hw1, he1⟩
      rw [← hpbs]
      exact hpb
    · have hlen2 : pb.length ≤ (p ++ [!d1]).length := by
        rw [List.length_append]
        simpa using hdepth1
      obtain ⟨hc, hent, hg2, hg1, hhts, hother⟩ :=
        swap_spec t1 pb (p ++ [!d1]) b z wb wz hpb hz hpbs hlen2 hbz
      refine ⟨setSub (setSub t1 pb (.leaf z wz)) (p ++ [!d1]) (.leaf b wb),
        ?_, hg2, le_trans hc hw1, by rw [hent]; exact he1⟩
      apply hother (p ++ [d1]) a wa ha1
      · intro hh2
        rw [← hh2] at hpb
        rw [ha1] at hpb
        injection hpb with hpb
        injection hpb with hpbc hpbf
        exact hab hpbc
      · exact sibling_positions_ne p d1 (!d1) (by cases d1 <;> simp)
  cases d1 with
  | false =>
      rw [show (!false) = true from rfl] at hb2
      have hnode := getSub_children t2 p _ _ ha2 hb2
      have hcol := collapse_le t2 p a b wa wb
        (.node (.leaf a wa) (.leaf b wb)) hnode
        (fun d => rfl) rfl
      refine ⟨setSub t2 p (.leaf a (wa + wb)), ?_, ?_⟩
      · have h4 := hcol.1
        omega
      · rw [hcol.2, he2]
  | true =>
      rw [show (!true) = false from rfl] at hb2
      have hnode := getSub_children t2 p _ _ hb2 ha2
      have hcol := collapse_le t2 p a b wa wb
        (.node (.leaf b wb) (.leaf a wa)) hnode
        (fun d => by
          show (d + 1) * wb + (d + 1) * wa = (d + 1) * wa + (d + 1) * wb
          ring)
        (Multiset.coe_eq_coe.mpr (List.Perm.swap (a, wa) (b, wb) []))
      refine ⟨setSub t2 p (.leaf a (wa + wb)), ?_, ?_⟩
      · have h4 := hcol.1
        omega
      · rw [hcol.2, he2]

lemma entriesQ_singleton (x : HuffmanNode) :
    entriesQ [x] = ↑(entriesH x) := by
  unfold entriesQ
  simp

lemma entriesQ_mem (q : List HuffmanNode) (e : Char × Nat)
    (he : e ∈ entriesQ q) : ∃ x, x ∈ q ∧ e ∈ entriesH x := by
  unfold entriesQ at he
  rw [Multiset.mem_coe] at he
  obtain ⟨l, hl, hel⟩ := List.mem_flatten.mp he
  obtain ⟨x, hx, rfl⟩ := List.mem_map.mp hl
  exact ⟨x, hx, hel⟩

lemma entriesQ_mem_of (q : List HuffmanNode) (x : HuffmanNode) (hx : x ∈ q)
    (e : Char × Nat) (he : e ∈ entriesH x) : e ∈ entriesQ q := by
  unfold entriesQ
  rw [Multiset.mem_coe]
  exact List.mem_flatten.mpr ⟨entriesH x, List.mem_map_of_mem entriesH hx, he⟩

/-- A lone leaf is optimal: every candidate over its single entry is a
single leaf, and both cost `0`. -/
lemma singleton_optimal (c : Char) (f : Nat) (t : BTree)
    (ht : (entriesB t : Multiset (Char × Nat))
      = ↑(entriesH (HuffmanNode.mk (some c) f none none))) :
    wplH (HuffmanNode.mk (some c) f none none) ≤ wplB t 0 := by
  rw [entriesH_leaf] at ht
  have hsing : entriesB t = [(c, f)] :=
    List.perm_singleton.mp (Multiset.coe_eq_coe.mp ht)
  cases t with
  | leaf c' f' =>
      show 0 * f + 0 + 0 ≤ 0 * f'
      omega
  | node l r =>
      exfalso
      have h2 : entriesB l ++ entriesB r = [(c, f)] := hsing
      have h3 := congrArg List.length h2
      rw [List.length_append] at h3
      have h4 := List.length_pos.mpr (entriesB_ne_nil l)
      have h5 := List.length_pos.mpr (entriesB_ne_nil r)
      simp at h3
      omega

/-- The optimality master induction: running the merge loop on an all-leaf
heap with pairwise distinct symbols down to a single tree produces a tree
of minimal weighted path length among all candidate trees over the queue's
entry multiset. -/
lemma buildLoop_optimal (fuel : Nat) :
    ∀ (q : List HuffmanNode) (root : HuffmanNode),
    isHeap q →
    (∀ x ∈ q, ∃ c f, x = HuffmanNode.mk (some c) f none none) →
    ((entriesQ q).map Prod.fst).Nodup →
    buildLoop fuel q = [root] →
    ∀ t : BTree, (entriesB t : Multiset (Char × Nat)) = entriesQ q →
    wplH root ≤ wplB t 0 := by
  induction fuel with
  | zero =>
      intro q root hheap hall hnd hres t ht
      rw [show buildLoop 0 q = q from rfl] at hres
      subst hres
      obtain ⟨c, f, rfl⟩ := hall root (List.mem_singleton_self root)
      rw [entriesQ_singleton] at ht
      exact singleton_optimal c f t ht
  | succ fuel ih =>
      intro q root hheap hall hnd hres t ht
      rw [buildLoop] at hres
      split at hres
      · rename_i hq
        split at hres
        · rename_i hp
          rw [heappop_none] at hp
          rw [hp] at hq
          simp at hq
        · rename_i left q1 hp
          split at hres
          · rename_i hp1
            rw [heappop_none] at hp1
            exfalso
            have hlen := heappop_length q left q1 hp
            rw [hp1] at hlen
            simp at hlen
            omega
          · rename_i right q2 hp1
            have hmem_left : left ∈ q :=
              (heappop_perm q left q1 hp).subset (List.mem_cons_self _ _)
            obtain ⟨a, wa, hleft⟩ := hall left hmem_left
            have hsub1 : ∀ x ∈ q1, x ∈ q := fun x hx =>
              (heappop_perm q left q1 hp).subset (List.mem_cons_of_mem _ hx)
            have hall1 : ∀ x ∈ q1, ∃ c f,
                x = HuffmanNode.mk (some c) f none none :=
              fun x hx => hall x (hsub1 x hx)
            have hmem_right : right ∈ q1 :=
              (heappop_perm q1 right q2 hp1).subset (List.mem_cons_self _ _)
            obtain ⟨b, wb, hright⟩ := hall1 right hmem_right
            have hsub2 : ∀ x ∈ q2, x ∈ q1 := fun x hx =>
              (heappop_perm q1 right q2 hp1).subset (List.mem_cons_of_mem _ hx)
            have hall2 : ∀ x ∈ q2, ∃ c f,
                x = HuffmanNode.mk (some c) f none none :=
              fun x hx => hall1 x (hsub2 x hx)
            have hspec1 := heappop_spec q left q1 hheap hp
            have hheap1 : isHeap q1 := hspec1.1
            have hspec2 := heappop_spec q1 right q2 hheap1 hp1
            have hheap2 : isHeap q2 := hspec2.1
            subst hleft
            subst hright
            have hminwa : ∀ y ∈ q, wa ≤ y.freq := hspec1.2
            have hminwb : ∀ y ∈ q1, wb ≤ y.freq := hspec2.2
            have e_q : entriesQ q = (a, wa) ::ₘ entriesQ q1 := by
              rw [← entriesQ_perm _ _ (heappop_perm q _ q1 hp), entriesQ_cons,
                entriesH_leaf, Multiset.coe_singleton, Multiset.singleton_add]
            have e_q1 : entriesQ q1 = (b, wb) ::ₘ entriesQ q2 := by
              rw [← entriesQ_perm _ _ (heappop_perm q1 _ q2 hp1), entriesQ_cons,
                entriesH_leaf, Multiset.coe_singleton, Multiset.singleton_add]
            have hnd_q : (((a, wa) ::ₘ (b, wb) ::ₘ entriesQ q2).map
                Prod.fst).Nodup := by
              rw [← e_q1, ← e_q]
              exact hnd
            rw [Multiset.map_cons, Multiset.map_cons] at hnd_q
            have hnd_parts := Multiset.nodup_cons.mp hnd_q
            have hab : a ≠ b := by
              intro h
              exact hnd_parts.1 (by rw [h]; exact Multiset.mem_cons_self _ _)
            have hanotin : a ∉ (entriesQ q2).map Prod.fst :=
              fun h => hnd_parts.1 (Multiset.mem_cons_of_mem h)
            have hnd_q2' := Multiset.nodup_cons.mp hnd_parts.2
            have hnd_q2 : ((entriesQ q2).map Prod.fst).Nodup := hnd_q2'.2
            have hq2_ne_a : ∀ e ∈ entriesQ q2, e.1 ≠ a := by
              intro e he h
              exact hanotin (h ▸ Multiset.mem_map_of_mem Prod.fst he)
            have hmerge : HuffmanNode.mk none
                ((HuffmanNode.mk (some a) wa none none).freq
                  + (HuffmanNode.mk (some b) wb none none).freq)
                (some (HuffmanNode.mk (some a) wa none none))
                (some (HuffmanNode.mk (some b) wb none none))
              = HuffmanNode.mk none (wa + wb)
                (some (HuffmanNode.mk (some a) wa none none))
                (some (HuffmanNode.mk (some b) wb none none)) := rfl
            rw [hmerge] at hres
            set M := HuffmanNode.mk none (wa + wb)
              (some (HuffmanNode.mk (some a) wa none none))
              (some (HuffmanNode.mk (some b) wb none none)) with hM
            set L := HuffmanNode.mk (some a) (wa + wb) none none with hL
            have hF1 : ∀ u, (substH a (wa + wb) M u).freq = u.freq :=
              substH_freq a (wa + wb) M (by rw [hM]; rfl)
            have hFd := substH_default a (wa + wb) M
            have hfix : ∀ x ∈ q2, substH a (wa + wb) M x = x := by
              intro x hx
              obtain ⟨c, f, rfl⟩ := hall2 x hx
              apply substH_fix_leaf
              intro hca
              exact hq2_ne_a (c, f)
                (entriesQ_mem_of q2 _ hx (c, f)
                  (by rw [entriesH_leaf]; exact List.mem_singleton_self _))
                hca
            have hmapfix : q2.map (substH a (wa + wb) M) = q2 := by
              calc q2.map (substH a (wa + wb) M)
                  = q2.map id := List.map_congr_left hfix
                _ = q2 := List.map_id q2
            have hFL : substH a (wa + wb) M L = M := by
              rw [hL]
              show (if a = a ∧ wa + wb = wa + wb then M
                else HuffmanNode.mk (some a) (wa + wb) none none) = M
              rw [if_pos ⟨rfl, rfl⟩]
            have hcomm : buildLoop fuel (heappush q2 M)
                = (buildLoop fuel (heappush q2 L)).map
                    (substH a (wa + wb) M) := by
              rw [← buildLoop_map_comm (substH a (wa + wb) M) hF1 hFd
                (substH_node a (wa + wb) M) fuel (heappush q2 L)]
              congr 1
              rw [← heappush_map_comm (substH a (wa + wb) M) hF1 hFd q2 L]
              rw [hmapfix, hFL]
            rw [hcomm] at hres
            cases hbg : buildLoop fuel (heappush q2 L) with
            | nil => rw [hbg] at hres; simp at hres
            | cons rootg restg =>
                rw [hbg] at hres
                simp only [List.map_cons] at hres
                injection hres with hroot_eq hrest
                have hrestg : restg = [] := List.map_eq_nil_iff.mp hrest
                subst hrestg
                have hheapg : isHeap (heappush q2 L) :=
                  heappush_isHeap q2 _ hheap2
                have hallg : ∀ x ∈ heappush q2 L, ∃ c f,
                    x = HuffmanNode.mk (some c) f none none := by
                  intro x hx
                  have hx' := (heappush_perm q2 _).subset hx
                  rcases List.mem_append.mp hx' with hx' | hx'
                  · exact hall2 x hx'
                  · rw [List.mem_singleton.mp hx', hL]
                    exact ⟨a, wa + wb, rfl⟩
                have e_qg : entriesQ (heappush q2 L)
                    = (a, wa + wb) ::ₘ entriesQ q2 := by
                  rw [entriesQ_perm _ _ (heappush_perm q2 L),
                    entriesQ_perm _ _ (List.perm_append_singleton L q2),
                    entriesQ_cons, hL, entriesH_leaf, Multiset.coe_singleton,
                    Multiset.singleton_add]
                have hndg : ((entriesQ (heappush q2 L)).map Prod.fst).Nodup := by
                  rw [e_qg, Multiset.map_cons]
                  exact Multiset.nodup_cons.mpr ⟨hanotin, hnd_q2⟩
                have hwfg : WFTree rootg := by
                  have hwf_all := buildLoop_all_wf fuel (heappush q2 L) (by
                    intro x hx
                    obtain ⟨c, f, rfl⟩ := hallg x hx
                    exact WFTree.leaf c f)
                  exact hwf_all rootg (by rw [hbg]; exact List.mem_singleton_self _)
                have e_rootg : (entriesH rootg : Multiset (Char × Nat))
                    = (a, wa + wb) ::ₘ entriesQ q2 := by
                  have h5 := buildLoop_entries fuel (heappush q2 L)
                  rw [hbg, entriesQ_singleton, e_qg] at h5
                  exact h5
                have h0 : Multiset.countP
                    (fun e => e.1 = a ∧ e.2 = wa + wb) (entriesQ q2) = 0 :=
                  Multiset.countP_eq_zero.mpr
                    (fun e he hcond => hq2_ne_a e he hcond.1)
                have h6 : Multiset.countP (fun e => e.1 = a ∧ e.2 = wa + wb)
                    (entriesH rootg : Multiset (Char × Nat)) = 1 := by
                  rw [e_rootg, Multiset.countP_cons, h0, if_pos ⟨rfl, rfl⟩]
                have hcount : (entriesH rootg).countP
                    (fun e => decide (e.1 = a ∧ e.2 = wa + wb)) = 1 := by
                  rw [← Multiset.coe_countP]
                  exact h6
                have hcost : wplH root = wplH rootg + (wa + wb) := by
                  rw [← hroot_eq]
                  show wplAux (substH a (wa + wb) M rootg) 0
                    = wplAux rootg 0 + (wa + wb)
                  rw [hM, substH_wplAux a b wa wb rootg hwfg 0, hcount, one_mul]
                have hndt : ((entriesB t).map Prod.fst).Nodup := by
                  have h7 : ((entriesB t : Multiset (Char × Nat)).map
                      Prod.fst).Nodup := by
                    rw [ht]
                    exact hnd
                  rw [Multiset.map_coe] at h7
                  exact Multiset.coe_nodup.mp h7
                have hat : (a, wa) ∈ entriesB t := by
                  have h8 : (a, wa) ∈ (entriesB t : Multiset (Char × Nat)) := by
                    rw [ht, e_q]
                    exact Multiset.mem_cons_self _ _
                  exact Multiset.mem_coe.mp h8
                have hbt : (b, wb) ∈ entriesB t := by
                  have h8 : (b, wb) ∈ (entriesB t : Multiset (Char × Nat)) := by
                    rw [ht, e_q, e_q1]
                    exact Multiset.mem_cons_of_mem (Multiset.mem_cons_self _ _)
                  exact Multiset.mem_coe.mp h8
                have hminat : ∀ e ∈ entriesB t, wa ≤ e.2 := by
                  intro e he
                  have he' : e ∈ entriesQ q := by
                    rw [← ht]
                    exact Multiset.mem_coe.mpr he
                  obtain ⟨xx, hxx, hex⟩ := entriesQ_mem q e he'
                  obtain ⟨c, f, rfl⟩ := hall xx hxx
                  rw [entriesH_leaf, List.mem_singleton] at hex
                  rw [hex]
                  exact hminwa _ hxx
                have hminbt : ∀ e ∈ entriesB t, e.1 ≠ a → wb ≤ e.2 := by
                  intro e he hea
                  have he' : e ∈ entriesQ q := by
                    rw [← ht]
                    exact Multiset.mem_coe.mpr he
                  rw [e_q] at he'
                  rcases Multiset.mem_cons.mp he' with he'' | he''
                  · rw [he''] at hea
                    exact absurd rfl hea
                  · obtain ⟨xx, hxx, hex⟩ := entriesQ_mem q1 e he''
                    obtain ⟨c, f, rfl⟩ := hall1 xx hxx
                    rw [entriesH_leaf, List.mem_singleton] at hex
                    rw [hex]
                    exact hminwb _ hxx
                obtain ⟨u, hu_cost, hu_ent⟩ :=
                  exchange t a b wa wb hab hndt hat hbt hminat hminbt
                have hu_e : (entriesB u : Multiset (Char × Nat))
                    = entriesQ (heappush q2 L) := by
                  rw [e_qg]
                  have h8 : (entriesB u : Multiset (Char × Nat))
                      + ↑[(a, wa), (b, wb)]
                      = ((a, wa + wb) ::ₘ entriesQ q2) + ↑[(a, wa), (b, wb)] := by
                    rw [hu_ent, ht, e_q, e_q1]
                    simp only [← Multiset.cons_coe, Multiset.coe_nil,
                      ← Multiset.singleton_add, add_zero]
                    abel
                  exact add_right_cancel h8
                have hWgoal := ih (heappush q2 L) rootg hheapg hallg hndg hbg u hu_e
                rw [hcost]
                calc wplH rootg + (wa + wb) ≤ wplB u 0 + (wa + wb) :=
                      Nat.add_le_add_right hWgoal _
                  _ ≤ wplB t 0 := hu_cost
      · rename_i hq
        subst hres
        obtain ⟨c, f, rfl⟩ := hall root (List.mem_singleton_self root)
        rw [entriesQ_singleton] at ht
        exact singleton_optimal c f t ht

/-! ## The claims -/

/-- C1.  For every non-empty symbol sequence with at least two distinct
symbols, encoding with the code table built from the sequence's own
frequency table and decoding with the tree rebuilt from that same table
returns exactly the original sequence: `decode(encode(x)) = x`. -/
theorem claim_roundtrip (data : List Char) (a b : Char) (ha : a ∈ data)
    (hb : b ∈ data) (hab : a ≠ b) :
    ((build_huffman_tree (build_frequency_dict data)).bind fun root =>
      (encode_data data (build_codes root)).bind fun enc =>
        decode_data enc root) = some data := by
  have hne : build_frequency_dict data ≠ [] :=
    build_frequency_dict_ne_nil data (by rintro rfl; simp at ha)
  obtain ⟨root, hroot⟩ := Option.isSome_iff_exists.mp
    (build_huffman_tree_isSome _ hne)
  have hwf := build_huffman_tree_wf _ _ hroot
  have hnd : ((entriesH root).map Prod.fst).Nodup :=
    build_keys_nodup _ _ hroot (build_frequency_dict_nodup data)
  have hcov : ∀ c ∈ data, c ∈ (entriesH root).map Prod.fst := by
    intro c hc
    rw [build_keys_mem _ _ hroot]
    exact (build_frequency_dict_keys data c).mpr hc
  have hlen2 : 2 ≤ (build_frequency_dict data).length := by
    have h2 := two_mem_length ((build_frequency_dict data).map Prod.fst) a b
      ((build_frequency_dict_keys data a).mpr ha)
      ((build_frequency_dict_keys data b).mpr hb) hab
    simpa using h2
  have hrc : root.char = none := wf_internal_of_two root hwf
    (by rw [build_entries_length _ _ hroot]; omega)
  obtain ⟨enc, henc, hdec⟩ := encode_decode_aux data root hwf hrc hnd hcov
  rw [hroot]
  simp [henc, hdec]

/-- Witness for C1 at the concrete input `"ab"`. -/
theorem claim_roundtrip_witness :
    'a' ∈ ['a', 'b'] ∧ 'b' ∈ ['a', 'b'] ∧ 'a' ≠ 'b' ∧
    ((build_huffman_tree (build_frequency_dict ['a', 'b'])).bind fun root =>
      (encode_data ['a', 'b'] (build_codes root)).bind fun enc =>
        decode_data enc root) = some ['a', 'b'] :=
  ⟨by simp, by simp, by decide,
    claim_roundtrip ['a', 'b'] 'a' 'b' (by simp) (by simp) (by decide)⟩

/-- C2.  Optimality of the builder: for every frequency table with
pairwise-distinct keys (every Python dict has them) on which the builder
returns a tree, that tree minimises the weighted path length
Σ depth(leaf) · frequency(leaf) among all binary trees whose leaves carry
exactly the table's symbols with their frequencies. -/
theorem claim_optimality (frequency : List (Char × Nat)) (root : HuffmanNode)
    (hnd : (frequency.map Prod.fst).Nodup)
    (hroot : build_huffman_tree frequency = some root)
    (t : BTree)
    (ht : (entriesB t : Multiset (Char × Nat)) = ↑frequency) :
    wplH root ≤ wplB t 0 := by
  unfold build_huffman_tree at hroot
  dsimp only at hroot
  split at hroot
  · exact absurd hroot (by simp)
  · rename_i x rest heq
    injection hroot with hroot
    subst hroot
    have hrest : rest = [] := by
      rcases frequency with _ | ⟨p0, frest⟩
      · simp [heapify, heapifyLoop, buildLoop] at heq
      · have hlenfin := buildLoop_length
          (heapify ((p0 :: frest).map fun p =>
            HuffmanNode.mk (some p.1) p.2 none none)).length
          (heapify ((p0 :: frest).map fun p =>
            HuffmanNode.mk (some p.1) p.2 none none))
        rw [heq] at hlenfin
        rw [if_pos (by rw [heapify_length]; simp)] at hlenfin
        simpa using hlenfin
    subst hrest
    exact buildLoop_optimal
      (heapify (frequency.map fun p =>
        HuffmanNode.mk (some p.1) p.2 none none)).length
      (heapify (frequency.map fun p =>
        HuffmanNode.mk (some p.1) p.2 none none))
      x (heapify_isHeap _)
      (by
        intro y hy
        have hy' := (heapify_perm _).subset hy
        obtain ⟨p, _, hp⟩ := List.mem_map.mp hy'
        exact ⟨p.1, p.2, hp.symm⟩)
      (by
        rw [entriesQ_perm _ _ (heapify_perm _), entriesQ_seed,
          Multiset.map_coe]
        exact Multiset.coe_nodup.mpr hnd)
      heq t
      (by
        rw [entriesQ_perm _ _ (heapify_perm _), entriesQ_seed]
        exact ht)

/-- Witness for C2: at the table `[('a', 1), ('b', 2)]` the built tree
costs no more than the flat candidate over the same two entries. -/
theorem claim_optimality_witness :
    (([('a', 1), ('b', 2)] : List (Char × Nat)).map Prod.fst).Nodup
    ∧ build_huffman_tree [('a', 1), ('b', 2)]
      = some (.mk none 3 (some (.mk (some 'a') 1 none none))
          (some (.mk (some 'b') 2 none none)))
    ∧ wplH (.mk none 3 (some (.mk (some 'a') 1 none none))
          (some (.mk (some 'b') 2 none none)))
        ≤ wplB (.node (.leaf 'a' 1) (.leaf 'b' 2)) 0 :=
  ⟨by decide, rfl,
    claim_optimality [('a', 1), ('b', 2)] _ (by decide) rfl
      (.node (.leaf 'a' 1) (.leaf 'b' 2)) rfl⟩

/-- C3 (counterexample).  At the single-entry table `[('a', 1)]` the builder
returns a lone leaf and `build_codes` assigns it the empty bit string, so
"every code in the table is non-empty" is false as stated: the reference
implementation does not special-case the degenerate tree. -/
theorem claim_codes_cex :
    ¬ (∀ root : HuffmanNode, build_huffman_tree [('a', 1)] = some root →
        ∀ e ∈ build_codes root, e.2 ≠ []) := by
  intro h
  exact h (.mk (some 'a') 1 none none) rfl ('a', [])
    (by rw [show build_codes (.mk (some 'a') 1 none none)
        = [('a', [])] from rfl]; simp) rfl

/-- C3 (amended).  For every tree built from a frequency table with at
least two entries and pairwise-distinct keys (a Python dict cannot hold
duplicate keys), every code in the generated table is non-empty and no code
extends — in particular is a proper prefix of — another code. -/
theorem claim_codes_amended (frequency : List (Char × Nat))
    (root : HuffmanNode) (h2 : 2 ≤ frequency.length)
    (hnd : (frequency.map Prod.fst).Nodup)
    (hroot : build_huffman_tree frequency = some root) :
    (∀ e ∈ build_codes root, e.2 ≠ []) ∧
    (build_codes root).Pairwise
      (fun e1 e2 => ¬ ExtOf e1.2 e2.2 ∧ ¬ ExtOf e2.2 e1.2) := by
  have hwf := build_huffman_tree_wf _ _ hroot
  have hndE : ((entriesH root).map Prod.fst).Nodup :=
    build_keys_nodup _ _ hroot hnd
  have hrc : root.char = none := wf_internal_of_two root hwf
    (by rw [build_entries_length _ _ hroot]; omega)
  rw [build_codes_eq_pathList root hwf hndE]
  refine ⟨?_, pathList_pairwise root hwf []⟩
  rintro ⟨c, p⟩ he
  obtain ⟨q, hq, hpath⟩ := pathList_mem_pathOf root hwf [] c p he
  simp at hq
  subst hq
  exact pathOf_ne_nil _ _ _ hpath hrc

/-- Witness for the amended C3 at the table `[('a', 1), ('b', 2)]`. -/
theorem claim_codes_amended_witness :
    2 ≤ ([('a', 1), ('b', 2)] : List (Char × Nat)).length ∧
    (([('a', 1), ('b', 2)] : List (Char × Nat)).map Prod.fst).Nodup ∧
    ((∀ e ∈ build_codes (.mk none 3 (some (.mk (some 'a') 1 none none))
        (some (.mk (some 'b') 2 none none))), e.2 ≠ []) ∧
      (build_codes (.mk none 3 (some (.mk (some 'a') 1 none none))
        (some (.mk (some 'b') 2 none none)))).Pairwise
        (fun e1 e2 => ¬ ExtOf e1.2 e2.2 ∧ ¬ ExtOf e2.2 e1.2)) :=
  ⟨by decide, by decide,
    claim_codes_amended [('a', 1), ('b', 2)] _ (by decide) (by decide) rfl⟩

/-- C4 (the code violates the claim).  On the single-symbol input `"aa"`
the builder returns a lone leaf, `build_codes` assigns the empty code, and
the full encode/decode round trip returns the empty sequence instead of
`"aa"` — the degenerate case the specification says must still round-trip
with a code of length at least 1. -/
theorem claim_degenerate_single_symbol :
    build_huffman_tree (build_frequency_dict ['a', 'a'])
      = some (.mk (some 'a') 2 none none) ∧
    build_codes (.mk (some 'a') 2 none none) = [('a', [])] ∧
    ((build_huffman_tree (build_frequency_dict ['a', 'a'])).bind fun root =>
      (encode_data ['a', 'a'] (build_codes root)).bind fun enc =>
        decode_data enc root) = some [] ∧
    ([] : List Char) ≠ ['a', 'a'] :=
  ⟨rfl, rfl, rfl, by simp⟩

/-- C5 (counterexample).  For the input `"aabc"` the codes are
`a ↦ [0]`, `c ↦ [10]`, `b ↦ [11]`; the stream below declares one padding
bit and its effective payload is the single bit `1`, which stops at the
internal node of the tree (`[1]` is not the path of any leaf), i.e. not at
a leaf boundary.  Decode nevertheless returns `some []` — a silently
truncated result — instead of reporting a decode error. -/
theorem claim_corruption_cex :
    build_huffman_tree (build_frequency_dict ['a', 'a', 'b', 'c'])
      = some (.mk none 4 (some (.mk (some 'a') 2 none none))
        (some (.mk none 2 (some (.mk (some 'c') 1 none none))
          (some (.mk (some 'b') 1 none none))))) ∧
    (∀ c : Char, ¬ PathOf (.mk none 4 (some (.mk (some 'a') 2 none none))
        (some (.mk none 2 (some (.mk (some 'c') 1 none none))
          (some (.mk (some 'b') 1 none none))))) [true] c) ∧
    decode_data [false, false, false, false, false, false, false, true,
        true, false]
      (.mk none 4 (some (.mk (some 'a') 2 none none))
        (some (.mk none 2 (some (.mk (some 'c') 1 none none))
          (some (.mk (some 'b') 1 none none))))) = some [] := by
  refine ⟨rfl, ?_, rfl⟩
  intro c h
  cases h with
  | right f l h => cases h

/-- C5 (amended).  For every tree built from a table with at least two
entries (and the pairwise-distinct keys every Python dict has): whenever
the effective payload of a non-empty stream splits into the concatenated
codewords of a symbol sequence followed by trailing bits that stay
mid-tree (never completing a codeword), `decode_data` silently discards
the trailing bits and returns exactly the symbols of the complete
codewords consumed; and on every non-empty stream it never raises. -/
theorem claim_corruption_amended (frequency : List (Char × Nat))
    (root : HuffmanNode) (s : List Bool) (h2 : 2 ≤ frequency.length)
    (hnd : (frequency.map Prod.fst).Nodup)
    (hroot : build_huffman_tree frequency = some root) (hs : s ≠ []) :
    (∀ (data : List Char) (bits extra : List Bool),
      joinedCodes data (build_codes root) = some bits →
      (if bitsToNat (s.take 8) = 0 then []
        else (s.take (s.length - bitsToNat (s.take 8))).drop 8)
        = bits ++ extra →
      MidWalk root extra →
      decode_data s root = some data)
    ∧ ∃ out, decode_data s root = some out := by
  have hwf := build_huffman_tree_wf _ _ hroot
  have hrc : root.char = none := wf_internal_of_two root hwf
    (by rw [build_entries_length _ _ hroot]; omega)
  have hndk : ((entriesH root).map Prod.fst).Nodup :=
    build_keys_nodup _ _ hroot hnd
  constructor
  · intro data bits extra hjoin hpayload hmid
    have hcov : ∀ c ∈ data, c ∈ (entriesH root).map Prod.fst := by
      intro c hc
      obtain ⟨p, hp⟩ := joinedCodes_lookup data _ bits hjoin c hc
      have hmem := dictLookup_mem _ _ _ hp
      rw [build_codes_eq_pathList root hwf hndk] at hmem
      rw [← pathList_keys root hwf []]
      exact List.mem_map_of_mem Prod.fst hmem
    rw [decode_data_ne_nil s hs root, hpayload,
      decodeWalk_joined_append root hwf hrc hndk data [] bits extra hjoin hcov,
      decodeWalk_mid root extra root ([] ++ data) hmid]
    simp
  · rw [decode_data_ne_nil s hs root]
    exact decodeWalk_total root hwf hrc _ root [] hwf hrc

/-- Witness for the amended C5: the `"aabc"` tree, a stream whose payload
is the codeword of `'a'` followed by the mid-tree bit `1`; decode returns
`some ['a']`, discarding the trailing bit. -/
theorem claim_corruption_amended_witness :
    2 ≤ (build_frequency_dict ['a', 'a', 'b', 'c']).length ∧
    ((build_frequency_dict ['a', 'a', 'b', 'c']).map Prod.fst).Nodup ∧
    ([false, false, false, false, false, false, false, true,
      false, true, false] : List Bool) ≠ [] ∧
    joinedCodes ['a'] (build_codes (.mk none 4
      (some (.mk (some 'a') 2 none none))
      (some (.mk none 2 (some (.mk (some 'c') 1 none none))
        (some (.mk (some 'b') 1 none none)))))) = some [false] ∧
    decode_data [false, false, false, false, false, false, false, true,
        false, true, false]
      (.mk none 4 (some (.mk (some 'a') 2 none none))
        (some (.mk none 2 (some (.mk (some 'c') 1 none none))
          (some (.mk (some 'b') 1 none none))))) = some ['a'] :=
  ⟨by decide, by decide, by decide, rfl,
    (claim_corruption_amended (build_frequency_dict ['a', 'a', 'b', 'c'])
      (.mk none 4 (some (.mk (some 'a') 2 none none))
        (some (.mk none 2 (some (.mk (some 'c') 1 none none))
          (some (.mk (some 'b') 1 none none)))))
      [false, false, false, false, false, false, false, true,
        false, true, false]
      (by decide) (by decide) rfl (by decide)).1
      ['a'] [false] [true] rfl rfl ⟨rfl, trivial⟩⟩

/-- C6 (counterexample).  On the aligned input `"abababab"` (eight symbols,
one bit each, 8 code bits in total) the header byte written by
`encode_data` holds 8, not `(8 - totalBits mod 8) mod 8 = 0`: the code
always pads with a full byte when the code bits are already aligned. -/
theorem claim_padding_cex :
    ((build_huffman_tree (build_frequency_dict
        ['a', 'b', 'a', 'b', 'a', 'b', 'a', 'b'])).bind fun root =>
      (encode_data ['a', 'b', 'a', 'b', 'a', 'b', 'a', 'b']
          (build_codes root)).map fun enc =>
        bitsToNat (enc.take 8)) = some 8 ∧
    (8 - 8 % 8) % 8 = 0 ∧ (8 : Nat) ≠ 0 :=
  ⟨rfl, rfl, by decide⟩

/-- C6 (amended).  The header byte of every encoded stream holds
`8 - totalBits mod 8`, which lies in `1..8` and equals `8` — not `0` —
when the concatenated code bits are already byte-aligned. -/
theorem claim_padding_amended (data : List Char)
    (codes : List (Char × List Bool)) (bits : List Bool)
    (h : joinedCodes data codes = some bits) :
    encode_data data codes = some (natToBits 8 (8 - bits.length % 8) ++ bits
      ++ List.replicate (8 - bits.length % 8) false) ∧
    bitsToNat ((natToBits 8 (8 - bits.length % 8) ++ bits
      ++ List.replicate (8 - bits.length % 8) false).take 8)
      = 8 - bits.length % 8 ∧
    1 ≤ 8 - bits.length % 8 ∧ 8 - bits.length % 8 ≤ 8 ∧
    (bits.length % 8 = 0 → 8 - bits.length % 8 = 8) := by
  have hmod : bits.length % 8 < 8 := Nat.mod_lt _ (by omega)
  refine ⟨?_, ?_, by omega, by omega, by omega⟩
  · unfold encode_data
    rw [h]
    rfl
  · have hlen8 : (natToBits 8 (8 - bits.length % 8)).length = 8 :=
      natToBits_length 8 _
    have htake : (natToBits 8 (8 - bits.length % 8) ++ bits
        ++ List.replicate (8 - bits.length % 8) false).take 8
        = natToBits 8 (8 - bits.length % 8) := by
      rw [List.append_assoc]
      rw [← hlen8]
      exact List.take_left _ _
    rw [htake]
    exact bitsToNat_natToBits 8 _ (by omega)

/-- Witness for the amended C6. -/
theorem claim_padding_amended_witness :
    joinedCodes ['a'] [('a', [true])] = some [true] ∧
    (encode_data ['a'] [('a', [true])] = some (natToBits 8 (8 - 1 % 8)
        ++ [true] ++ List.replicate (8 - 1 % 8) false) ∧
      bitsToNat ((natToBits 8 (8 - 1 % 8) ++ [true]
        ++ List.replicate (8 - 1 % 8) false).take 8) = 8 - 1 % 8 ∧
      1 ≤ 8 - 1 % 8 ∧ 8 - 1 % 8 ≤ 8 ∧ (1 % 8 = 0 → 8 - 1 % 8 = 8)) := by
  have h : joinedCodes ['a'] [('a', [true])] = some [true] := rfl
  exact ⟨h, claim_padding_amended ['a'] [('a', [true])] [true] h⟩

/-- C7.  The frequency analyzer returns a table whose counts sum to the
input length and whose key set is exactly the set of symbols occurring in
the input; the empty sequence yields the empty table. -/
theorem claim_frequency_table :
    (∀ data : List Char,
      ((build_frequency_dict data).map Prod.snd).sum = data.length ∧
      (∀ c : Char, c ∈ (build_frequency_dict data).map Prod.fst ↔ c ∈ data)) ∧
    build_frequency_dict [] = [] :=
  ⟨fun data => ⟨build_frequency_dict_sum data,
    fun c => build_frequency_dict_keys data c⟩, rfl⟩

/-- C8.  Every tree the builder returns is well-formed: each internal node
carries no symbol, exactly two children and the sum of their frequencies as
its own frequency; each leaf carries exactly one symbol and no children. -/
theorem claim_tree_invariant (frequency : List (Char × Nat))
    (root : HuffmanNode) (h : build_huffman_tree frequency = some root) :
    WFTree root :=
  build_huffman_tree_wf frequency root h

/-- Witness for C8 at the table `[('a', 1), ('b', 2)]`. -/
theorem claim_tree_invariant_witness :
    build_huffman_tree [('a', 1), ('b', 2)]
      = some (.mk none 3 (some (.mk (some 'a') 1 none none))
        (some (.mk (some 'b') 2 none none))) ∧
    WFTree (.mk none 3 (some (.mk (some 'a') 1 none none))
      (some (.mk (some 'b') 2 none none))) :=
  ⟨rfl, claim_tree_invariant [('a', 1), ('b', 2)] _ rfl⟩

/-- C9.  A stream whose first byte holds padding value 0 decodes to the
empty sequence regardless of the remaining bits: the Python slice
`encoded_data[8:-0]` is `encoded_data[8:0]`, the empty string. -/
theorem claim_zero_padding (rest : List Bool) (root : HuffmanNode) :
    decode_data (List.replicate 8 false ++ rest) root = some [] := by
  have hne : List.replicate 8 false ++ rest ≠ [] := by simp
  rw [decode_data_ne_nil _ hne root]
  have hlen : (List.replicate 8 false : List Bool).length = 8 := by simp
  have htake : (List.replicate 8 false ++ rest).take 8
      = List.replicate 8 false := List.take_left' hlen
  rw [htake, bitsToNat_replicate_false, if_pos rfl]
  rfl

/-- C10.  The builder is defined exactly on the non-empty tables: on the
empty table the final `priority_queue[0]` raises (`none` here), and every
non-empty table produces a root node. -/
theorem claim_builder_domain :
    build_huffman_tree [] = none ∧
    ∀ frequency : List (Char × Nat), frequency ≠ [] →
      ∃ root, build_huffman_tree frequency = some root :=
  ⟨rfl, fun frequency h => Option.isSome_iff_exists.mp
    (build_huffman_tree_isSome frequency h)⟩

/-- Witness for C10 at the table `[('a', 1)]`. -/
theorem claim_builder_domain_witness :
    ([('a', 1)] : List (Char × Nat)) ≠ [] ∧
    ∃ root, build_huffman_tree [('a', 1)] = some root :=
  ⟨by simp, claim_builder_domain.2 [('a', 1)] (by simp)⟩

end Kompresor
